import Mathlib

/-!
Verification of the MATO quiz-conversion tools.

This file gives a shallow embedding, in Lean, of the parts of the MATO
repository that the verified properties talk about:

* `Tools/content_validator.py`: record extraction from CSV rows and from the
  generated XLSX "Questions" sheet, index-to-letter conversion, the content
  hash, and the validation report.
* `markdown_to_xlsx.py`: the per-block markdown question parser and the
  Questions-sheet layout produced by `create_xlsx_output`.
* `Tools/csv_formatter.py`: the row filter and schema rewrite of
  `format_csv_for_converter`.

Modelling conventions, used throughout:

* Python strings are Lean `String`s; `str.strip`, `str.lower`, `str.upper`,
  `str.startswith`, `in` (substring), `str.join` and slicing are modelled by
  the `py*`/list helpers below, defined directly over the character list so
  their behaviour is fully transparent to proofs.  Case mapping is the ASCII
  one (the repository's data is ASCII).
* A spreadsheet cell is `Option String` (`none` = never written, which
  openpyxl reports as `None`); a row of the 7-column Questions sheet is the
  `Row` structure.  Python truthiness of a cell (`if cell and
  str(cell).strip()`) is `cellTruthyStrip`.
* `sorted(l, key=...)` is a stable sort by the key; it is modelled by
  Mathlib's `List.insertionSort`, which is stable, hence extensionally equal
  to Python's (also stable) Timsort for the total preorders used here.
* `hashlib.sha256(x).hexdigest()` is modelled by an injective stand-in
  (`sha256_hex`).  The verified claims depend on the digest only through
  equality and inequality of digests; SHA-256 is deterministic (equal inputs
  give equal digests) and treated — as the validator itself assumes — as
  collision-free (distinct serialized inputs give distinct digests), which is
  exactly what an injective function captures.
-/

namespace MATO

/-- Python `s.split('\n')` on a character list: split at every newline,
keeping empty pieces (so `"" ↦ [""]`, `"\n" ↦ ["", ""]`). -/
def splitLines : List Char → List (List Char)
  | [] => [[]]
  | c :: rest =>
    match splitLines rest with
    | [] => [[]]
    | cur :: more => if c = '\n' then [] :: cur :: more else (c :: cur) :: more

/-- Python `str.strip()`: drop leading and trailing whitespace. -/
def pyStrip (s : String) : String :=
  String.mk (((s.data.dropWhile Char.isWhitespace).reverse.dropWhile
    Char.isWhitespace).reverse)

/-- Python `str.lower()` (ASCII case mapping). -/
def pyLower (s : String) : String :=
  String.mk (s.data.map Char.toLower)

/-- Python `str.upper()` (ASCII case mapping). -/
def pyUpper (s : String) : String :=
  String.mk (s.data.map Char.toUpper)

/-- Does the second character list start with the first
(Python `str.startswith`)? -/
def litPre : List Char → List Char → Bool
  | [], _ => true
  | _ :: _, [] => false
  | c :: cs, d :: ds => c == d && litPre cs ds

/-- Helper for `containsSub`. -/
def containsSubAux (sub : List Char) : List Char → Bool
  | [] => litPre sub []
  | c :: rest => litPre sub (c :: rest) || containsSubAux sub rest

/-- Python `sub in s` substring test. -/
def containsSub (sub s : String) : Bool :=
  containsSubAux sub.data s.data

/-- Python `sep.join(l)`. -/
def joinSep (sep : String) : List String → String
  | [] => ""
  | [x] => x
  | x :: y :: xs => x ++ sep ++ joinSep sep (y :: xs)

/-- One-character string (Python `chr` composed with a code point). -/
def chrS (c : Char) : String :=
  String.mk [c]

/-- Python `s[:n]` for a string. -/
def pyTake (n : Nat) (s : String) : String :=
  String.mk (s.data.take n)

/-- Python `s[n:]` for a string. -/
def pyDrop (n : Nat) (s : String) : String :=
  String.mk (s.data.drop n)

/-- Strict lexicographic order on character lists by code point — how Python
compares strings.  (Defined from scratch so that it reduces in the kernel;
Lean's own `String.lt` decision procedure is built on well-founded recursion
over byte iterators and does not.) -/
def codeLt : List Char → List Char → Bool
  | [], [] => false
  | [], _ :: _ => true
  | _ :: _, [] => false
  | c :: cs, d :: ds =>
    c.toNat < d.toNat || (c.toNat = d.toNat && codeLt cs ds)

/-- Reflexive lexicographic order on character lists by code point. -/
def codeLe : List Char → List Char → Bool
  | [], _ => true
  | _ :: _, [] => false
  | c :: cs, d :: ds =>
    c.toNat < d.toNat || (c.toNat = d.toNat && codeLe cs ds)

/-- Python `a <= b` on strings (code-point lexicographic order). -/
def pyStrLe (a b : String) : Bool :=
  codeLe a.data b.data

/-- Python `a < b` on strings. -/
def pyStrLt (a b : String) : Bool :=
  codeLt a.data b.data

/-! ## Data model -/

/-- A normalized question record, as built by both extractors of
`content_validator.py` (`question`, `choices`, `correct_answer`, `source`
keys of the Python dict). -/
structure QRecord where
  question : String
  choices : List String
  correct_answer : String
  source : String
deriving DecidableEq

/-- A parsed markdown question, the dict built by `parse_markdown_questions`
in `markdown_to_xlsx.py`. -/
structure Question where
  track : String
  question_number : String
  question : String
  answers : List String
  answer_letter : String
  correct : Nat
  explanation : String
  page_reference : String
  section_id : String
  question_type : String
deriving DecidableEq

/-- One row of the 7-column "Questions" worksheet.  A cell is `none` when the
writer never assigned it (openpyxl then reports `None`). -/
structure Row where
  typeCol : Option String
  questionCol : Option String
  explanationCol : Option String
  answerCol : Option String
  correctCol : Option String
  metaKeyCol : Option String
  metaValueCol : Option String
deriving DecidableEq

/-- The debug-statistics dict of `parse_markdown_questions`, restricted to
the scalar fields the writer's Debug sheet reports.  The Questions sheet is
shown (theorem on claim C9) not to depend on any of it. -/
structure DebugStats where
  total_questions : Nat
  keep_prefix : Bool
  randomization_safe : Bool
  parsing_errors : List String
  multi_answer_count : Nat
deriving DecidableEq

/-- An input CSV row as seen through `csv.DictReader` by
`extract_csv_content` / `format_csv_for_converter`.  Field names mirror the
CSV headers: `Question #`, `Question Stem`, `Answer A`–`Answer D`,
`Correct Answer` (a missing key reads as `""`, like `row.get(k, '')`). -/
structure CsvRow where
  question_number : String
  question_stem : String
  answerA : String
  answerB : String
  answerC : String
  answerD : String
  correct_answer : String
deriving DecidableEq

/-- An output row of `format_csv_for_converter` (target schema `Question`,
`Choice 1`–`Choice 4`, `Correct Answer`, `Explanation`, `Source`). -/
structure OutRow where
  question : String
  c1 : String
  c2 : String
  c3 : String
  c4 : String
  correct_answer : String
  explanation : String
  source : String
deriving DecidableEq

/-- The validation report dict of `validate_conversion` (file-path fields
elided; `differences` is `[]` when validation passed, in which case the
Python dict omits the key). -/
structure Report where
  validation_passed : Bool
  original_hash : String
  converted_hash : String
  original_question_count : Nat
  converted_question_count : Nat
  hash_match : Bool
  count_match : Bool
  differences : List String
deriving DecidableEq

/-! ## content_validator.py: convert_indices_to_letter -/

/-- `convert_indices_to_letter` (content_validator.py:144-149): sort the
0-based indices, keep those in `[0, 26)`, map to `chr(65+idx)`, and join
with `", "` when more than one letter, else the single letter, else `""`. -/
def convert_indices_to_letter (indices : List Int) : String :=
  if indices = [] then ""
  else
    let letters := (List.insertionSort (fun a b : Int => a ≤ b) indices).filterMap
      (fun idx => if 0 ≤ idx ∧ idx < 26 then some (chrS (Char.ofNat (65 + idx).toNat)) else none)
    if letters.length > 1 then joinSep ", " letters
    else
      match letters with
      | [] => ""
      | x :: _ => x

/-! ## content_validator.py: extract_csv_content -/

/-- The noise filter shared by `extract_csv_content` (content_validator.py:37-39)
and `format_csv_for_converter` (csv_formatter.py:48-50): header repetitions,
section headers and metadata rows, tested on the stripped question stem. -/
def csvNoise (stem : String) : Bool :=
  stem == "Question Stem" || containsSub "Final Exam" stem || containsSub "Quiz" stem

/-- The four answer cells of a CSV row, in `A`–`D` order. -/
def csvAnswers (r : CsvRow) : List String :=
  [r.answerA, r.answerB, r.answerC, r.answerD]

/-- The per-row body of `extract_csv_content` (content_validator.py:29-61):
rows without a question stem, noise rows, and rows with no non-blank answer
are skipped; the rest become one record each. -/
def csvRecordOf (row : CsvRow) : List QRecord :=
  if row.question_stem = "" ∨ pyStrip row.question_stem = "" then []
  else
    let question_stem := pyStrip row.question_stem
    if csvNoise question_stem ∨ ¬ ((csvAnswers row).any (fun a => pyStrip a ≠ "")) then []
    else
      let question_number := pyStrip row.question_number
      let source_id := if question_number ≠ "" then "PREP FL " ++ question_number else "PREP FL"
      let qd : QRecord :=
        ⟨question_stem, (csvAnswers row).map pyStrip, pyStrip row.correct_answer, source_id⟩
      if qd.question ≠ "" ∧ qd.choices.any (fun c => c ≠ "") then [qd] else []

/-- `extract_csv_content` (content_validator.py:15-63).  (File reading and
the two-line preamble skip are outside the model: the input is the
`DictReader` row list.) -/
def extract_csv_content (rows : List CsvRow) : List QRecord :=
  rows.flatMap csvRecordOf

/-! ## content_validator.py: extract_xlsx_content -/

/-- Python truthiness of a cell combined with strip:
`cell and str(cell).strip()`. -/
def cellTruthyStrip (c : Option String) : Bool :=
  match c with
  | none => false
  | some s => s ≠ "" && pyStrip s ≠ ""

/-- The Correct-column test `correct_col == '1' or str(correct_col).strip() == '1'`
(`str(None) = "None"` never passes). -/
def correctMarked (c : Option String) : Bool :=
  match c with
  | none => false
  | some s => s == "1" || pyStrip s == "1"

/-- The extractor's in-flight state: current question text, choices collected
so far, 0-based indices of correct-marked choices, and the source (Meta
Value) captured on the question's own row. -/
structure PendingQ where
  question : String
  choices : List String
  indices : List Int
  source : String
deriving DecidableEq

/-- Closing an in-flight question into a record
(content_validator.py:105-110 and 133-138). -/
def finishPending (p : PendingQ) : QRecord :=
  ⟨p.question, p.choices, convert_indices_to_letter p.indices, p.source⟩

/-- Starting a new question from a row whose Question cell is truthy
(content_validator.py:102-123): capture stripped question text and source;
when the Answer cell is truthy, it becomes choice 0, and a Correct marker on
this row records index 0. -/
def beginPending (r : Row) : PendingQ :=
  let src :=
    match r.metaValueCol with
    | none => ""
    | some s => if s ≠ "" then pyStrip s else ""
  let base : PendingQ := ⟨pyStrip (r.questionCol.getD ""), [], [], src⟩
  if cellTruthyStrip r.answerCol then
    { base with
      choices := [pyStrip (r.answerCol.getD "")],
      indices := if correctMarked r.correctCol then [0] else [] }
  else base

/-- A continuation row (content_validator.py:126-129): append the stripped
answer; a Correct marker records the index of the choice just appended
(`len(current_choices) - 1` after the append, i.e. the length before it). -/
def stepPending (p : PendingQ) (r : Row) : PendingQ :=
  { p with
    choices := p.choices ++ [pyStrip (r.answerCol.getD "")],
    indices :=
      if correctMarked r.correctCol then p.indices ++ [(p.choices.length : Int)]
      else p.indices }

/-- The row loop of `extract_xlsx_content` (content_validator.py:95-139),
including the final flush of the last open question.  All modelled rows have
the full 7 columns, so the `len(row) < 7` guard never fires. -/
def extractRows : List Row → Option PendingQ → List QRecord
  | [], none => []
  | [], some p => [finishPending p]
  | r :: rs, st =>
    if cellTruthyStrip r.questionCol then
      (match st with
       | some p => [finishPending p]
       | none => []) ++ extractRows rs (some (beginPending r))
    else
      match st with
      | some p =>
        if cellTruthyStrip r.answerCol then extractRows rs (some (stepPending p r))
        else extractRows rs (some p)
      | none => extractRows rs none

/-- `extract_xlsx_content` (content_validator.py:65-142) on the Questions
sheet given as its row list: skip the header row, then run the row loop.
(Workbook loading and the Questions-sheet existence check are outside the
model.) -/
def extract_xlsx_content (sheet : List Row) : List QRecord :=
  extractRows (sheet.drop 1) none

/-! ## content_validator.py: generate_content_hash -/

/-- Record normalization inside `generate_content_hash`
(content_validator.py:161-168): lowercase and strip question text and each
non-blank choice (blank choices dropped), uppercase and strip the correct
answer, strip the source. -/
def normalizeRecord (q : QRecord) : QRecord :=
  ⟨pyLower (pyStrip q.question),
   (q.choices.filter (fun c => pyStrip c ≠ "")).map (fun c => pyLower (pyStrip c)),
   pyUpper (pyStrip q.correct_answer),
   pyStrip q.source⟩

/-- The sort key of `sorted(questions, key=lambda x: x['question'])`
(content_validator.py:157): the original-case question text alone, in
Python's code-point order. -/
def recLe (a b : QRecord) : Prop :=
  pyStrLe a.question b.question = true

instance : DecidableRel recLe := fun a b => inferInstanceAs (Decidable (_ = true))

/-- The record sort of `generate_content_hash` (content_validator.py:157):
a stable sort by original-case question text. -/
def sortRecords (l : List QRecord) : List QRecord :=
  List.insertionSort recLe l

/-- JSON string escaping of `json.dumps` with its default
`ensure_ascii=True`: `\"`, `\\`, the short escapes for control characters
that have them, `\uXXXX` (lowercase hex) for other characters outside
`0x20`–`0x7e`, and a surrogate pair for code points above `0xFFFF`. -/
def hexDigit (n : Nat) : Char :=
  if n < 10 then Char.ofNat (48 + n) else Char.ofNat (87 + n)

/-- Four lowercase hex digits of a value below `0x10000`. -/
def hex4 (n : Nat) : List Char :=
  [hexDigit (n / 4096 % 16), hexDigit (n / 256 % 16), hexDigit (n / 16 % 16), hexDigit (n % 16)]

/-- A `\uXXXX` escape. -/
def uEsc (n : Nat) : List Char :=
  '\\' :: 'u' :: hex4 n

/-- Escape a single character as `json.dumps` (ensure_ascii) does. -/
def escChar (c : Char) : List Char :=
  if c = '"' then ['\\', '"']
  else if c = '\\' then ['\\', '\\']
  else if c = '\x08' then ['\\', 'b']
  else if c = '\x0c' then ['\\', 'f']
  else if c = '\n' then ['\\', 'n']
  else if c = '\r' then ['\\', 'r']
  else if c = '\t' then ['\\', 't']
  else if 0x20 ≤ c.toNat ∧ c.toNat ≤ 0x7e then [c]
  else if c.toNat ≤ 0xffff then uEsc c.toNat
  else uEsc (0xd800 + (c.toNat - 0x10000) / 0x400) ++ uEsc (0xdc00 + (c.toNat - 0x10000) % 0x400)

/-- Escape every character of a list. -/
def escChars (l : List Char) : List Char :=
  l.flatMap escChar

/-- A JSON string literal, `json.dumps`-style. -/
def strJson (s : String) : String :=
  "\"" ++ String.mk (escChars s.data) ++ "\""

/-- A JSON array of strings with `separators=(',', ':')`. -/
def strListJson (l : List String) : String :=
  "[" ++ joinSep "," (l.map strJson) ++ "]"

/-- One normalized record as `json.dumps(..., sort_keys=True,
separators=(',', ':'))` serializes it: keys in sorted order
`choices`, `correct_answer`, `question`, `source`. -/
def recordJson (q : QRecord) : String :=
  "\x7b\"choices\":" ++ strListJson q.choices
    ++ ",\"correct_answer\":" ++ strJson q.correct_answer
    ++ ",\"question\":" ++ strJson q.question
    ++ ",\"source\":" ++ strJson q.source ++ "\x7d"

/-- The canonical serialization of the whole normalized record list
(content_validator.py:171). -/
def contentJson (l : List QRecord) : String :=
  "[" ++ joinSep "," (l.map recordJson) ++ "]"

/-- Stand-in for `hashlib.sha256(utf8).hexdigest()`: an injective function of
the serialized content (see the header comment; SHA-256 is deterministic and
assumed collision-free, and the claims use the digest only up to
equality/inequality). -/
def sha256_hex (s : String) : String :=
  s

/-- `generate_content_hash` (content_validator.py:151-172): sort records by
original-case question text, normalize, serialize canonically, digest. -/
def generate_content_hash (questions : List QRecord) : String :=
  sha256_hex (contentJson ((sortRecords questions).map normalizeRecord))

/-! ## content_validator.py: compare_question_sets and validate_conversion -/

/-- Dict building `{q['question']: q for q in l}` followed by lookup: the
last record with the given question text wins. -/
def lastWith (t : String) (l : List QRecord) : Option QRecord :=
  (l.filter (fun q => q.question = t)).getLast?

/-- `compare_question_sets` (content_validator.py:214-244).  The distinct
question texts of each side form the Python sets; CPython iterates a set in
an unspecified order, so the model fixes first-occurrence order — every
property proved about the result is order-independent (membership, counts). -/
def compare_question_sets (original converted : List QRecord) : List String :=
  let oK := (original.map (fun q => q.question)).dedup
  let cK := (converted.map (fun q => q.question)).dedup
  let missing := oK.filter (fun t => t ∉ cK)
  let extra := cK.filter (fun t => t ∉ oK)
  let d1 :=
    if missing.length > 0 then
      ["Questions missing in converted file: " ++ toString missing.length]
    else []
  let d2 :=
    if extra.length > 0 then
      ["Extra questions in converted file: " ++ toString extra.length]
    else []
  let common := oK.filter (fun t => t ∈ cK)
  let d3 := common.flatMap (fun t =>
    match lastWith t original, lastWith t converted with
    | some oq, some cq =>
      (if oq.choices ≠ cq.choices then
        ["Choice mismatch in question: " ++ pyTake 50 t ++ "..."]
       else []) ++
      (if oq.correct_answer ≠ cq.correct_answer then
        ["Correct answer mismatch in question: " ++ pyTake 50 t ++ "..."]
       else [])
    | _, _ => [])
  d1 ++ d2 ++ d3

/-- `validate_conversion` (content_validator.py:174-212) on the two already
extracted record lists (extraction and file I/O happen before this core):
the report compares hashes and counts; `differences` is only computed when
validation failed. -/
def validate_conversion (original converted : List QRecord) : Report :=
  let original_hash := generate_content_hash original
  let converted_hash := generate_content_hash converted
  { validation_passed := original_hash == converted_hash,
    original_hash := original_hash,
    converted_hash := converted_hash,
    original_question_count := original.length,
    converted_question_count := converted.length,
    hash_match := original_hash == converted_hash,
    count_match := original.length == converted.length,
    differences :=
      if original_hash == converted_hash then []
      else compare_question_sets original converted }

/-! ## markdown_to_xlsx.py: parse_markdown_questions -/

/-- Match of the checked-choice regex `^- \[([xX])\] (.+)$` against a
(stripped) line: the choice text after the 6-character marker, which must be
non-empty. -/
def checkedRest (line : String) : Option String :=
  if litPre "- [x] ".data line.data || litPre "- [X] ".data line.data then
    let r := String.mk (line.data.drop 6)
    if r ≠ "" then some r else none
  else none

/-- Match of the unchecked-choice regex `^- \[ \] (.+)$`. -/
def uncheckedRest (line : String) : Option String :=
  if litPre "- [ ] ".data line.data then
    let r := String.mk (line.data.drop 6)
    if r ≠ "" then some r else none
  else none

/-- One step of the choice loop (markdown_to_xlsx.py:78-115): a checked
choice is appended and its 1-based position becomes the correct index; an
unchecked choice is only appended.  State: (choices so far, correct index). -/
def choiceStep (st : List String × Nat) (line : String) : List String × Nat :=
  match checkedRest line with
  | some t => (st.1 ++ [t], st.1.length + 1)
  | none =>
    match uncheckedRest line with
    | some t => (st.1 ++ [t], st.2)
    | none => st

/-- The choices and the correct index collected from the stripped non-blank
lines of a block (initial correct index defaults to 1). -/
def parsedChoices (lines : List String) : List String × Nat :=
  lines.foldl choiceStep ([], 1)

/-- `block.split('\n')` (markdown_to_xlsx.py:66's underlying line list). -/
def blockRawLines (block : String) : List String :=
  (splitLines block.data).map String.mk

/-- `[line.strip() for line in block.split('\n') if line.strip()]`
(markdown_to_xlsx.py:66): the stripped non-blank lines.  (A stripped line is
blank iff the raw line strips to blank, so filtering the stripped lines on
`≠ ""` is the comprehension's condition.) -/
def blockLines (block : String) : List String :=
  ((blockRawLines block).map pyStrip).filter (fun l => l ≠ "")

/-- `re.search(r'^\*\*Answer:\*\* ([A-E])', block, re.MULTILINE)` with
default `'A'`: the letter after the first line that starts with
`"**Answer:** "` followed by a letter `A`–`E`. -/
def answerLetterOf (rawLines : List String) : String :=
  match rawLines.findSome? (fun l =>
    if litPre "**Answer:** ".data l.data then
      match l.data.drop 12 with
      | c :: _ => if 'A' ≤ c ∧ c ≤ 'E' then some (chrS c) else none
      | [] => none
    else none) with
  | some s => s
  | none => "A"

/-- `re.search(r'^\*\*Tag:\*\* (.*)$', block, re.MULTILINE)`: the rest of the
first line starting with the given tag (tag includes the trailing space). -/
def metaAfter (tag : String) (rawLines : List String) : Option String :=
  rawLines.findSome? (fun l =>
    if litPre tag.data l.data then some (String.mk (l.data.drop tag.data.length)) else none)

/-- The True/False test of markdown_to_xlsx.py:130-136: exactly two parsed
choices whose stripped, lowercased texts (blank ones dropped) form the set
`{"true", "false"}`. -/
def isTFChoices (choices : List String) : Prop :=
  choices.length = 2 ∧
    (choices.filterMap
      (fun c => if pyStrip c ≠ "" then some (pyLower (pyStrip c)) else none)).toFinset
      = ({"true", "false"} : Finset String)

instance (choices : List String) : Decidable (isTFChoices choices) := by
  unfold isTFChoices; infer_instance

/-- The per-block body of `parse_markdown_questions`
(markdown_to_xlsx.py:59-171): question text is the first stripped non-blank
line; choices and correct index come from the checkbox lines; metadata comes
from line-anchored regexes over the raw lines; True/False keeps 2 choices,
Multiple Choice pads to at least 4; blocks with question text under 5
characters or with no non-blank choice are dropped (`none`). -/
def parseBlock (section_name : String) (qnum : Nat) (block : String) : Option Question :=
  let rawLines := blockRawLines block
  let lines := blockLines block
  match lines with
  | [] => none
  | question_text :: _ =>
    let cs := parsedChoices lines
    let choices := cs.1
    let correct_index := cs.2
    let answer_letter := answerLetterOf rawLines
    let page_ref := pyStrip ((metaAfter "**Page:** " rawLines).getD "")
    let section_id := pyStrip ((metaAfter "**Section:** " rawLines).getD "")
    let explanation := pyStrip ((metaAfter "**Explanation:** " rawLines).getD "")
    let question_type := if isTFChoices choices then "TF" else "MC"
    let answers :=
      if question_type = "TF" then choices.take 2
      else choices ++ List.replicate (4 - choices.length) ""
    if question_text.length < 5 then none
    else if ¬ (answers.any (fun c => c ≠ "")) then none
    else
      some ⟨section_name, toString qnum, question_text, answers, answer_letter,
        correct_index, explanation, page_ref, section_id, question_type⟩

/-- The block loop of `parse_markdown_questions` (markdown_to_xlsx.py:59-63):
blank blocks are skipped without consuming a question number; every other
block gets the next number, whether or not it parses. -/
def parseBlocksFrom (section_name : String) : Nat → List String → List Question
  | _, [] => []
  | n, b :: bs =>
    if pyStrip b = "" then parseBlocksFrom section_name n bs
    else
      match parseBlock section_name (n + 1) b with
      | some q => q :: parseBlocksFrom section_name (n + 1) bs
      | none => parseBlocksFrom section_name (n + 1) bs

/-- `parse_markdown_questions` on the block list produced by the
`re.split(r'^### Question \d+', ...)` of markdown_to_xlsx.py:33 (the split
itself is taken as given: its output blocks are the input here). -/
def parse_markdown_questions (section_name : String) (blocks : List String) : List Question :=
  parseBlocksFrom section_name 0 blocks

/-! ## markdown_to_xlsx.py: create_xlsx_output (Questions sheet) -/

/-- A row none of whose cells were ever written. -/
def blankRow : Row :=
  ⟨none, none, none, none, none, none, none⟩

/-- The header row of the Questions sheet (markdown_to_xlsx.py:195-199). -/
def headerRow : Row :=
  ⟨some "Type", some "Question", some "Explanation", some "Answer", some "Correct",
   some "Meta Key", some "Meta Value"⟩

/-- The first row of a question (markdown_to_xlsx.py:204-213): type, question
text, explanation, first answer, a `'1'` Correct marker only when the correct
index is 1, the literal Meta Key `ID`, and the section id as Meta Value. -/
def questionHeadRow (q : Question) : Row :=
  ⟨some q.question_type, some q.question, some q.explanation, some (q.answers.headD ""),
   if q.correct = 1 then some "1" else none, some "ID", some q.section_id⟩

/-- A continuation row for answer index `idx ≥ 1`
(markdown_to_xlsx.py:216-221), written only when that answer is non-empty:
the answer text and a `'1'` marker when `correct = idx + 1`. -/
def answerContRow (q : Question) (idx : Nat) : Row :=
  ⟨none, none, none, some (q.answers.getD idx ""),
   if q.correct = idx + 1 then some "1" else none, none, none⟩

/-- All rows the writer lays out for one question
(markdown_to_xlsx.py:202-237): the head row; one row per remaining answer
index (blank when that answer is empty — the row counter advances
regardless); the type-dependent padding rows of lines 223-234 (computed from
the count of non-empty answers); and the mandatory blank separator row. -/
def questionRows (q : Question) : List Row :=
  let contRows := (List.range' 1 (q.answers.length - 1)).map
    (fun idx => if q.answers.getD idx "" ≠ "" then answerContRow q idx else blankRow)
  let answers_written := (q.answers.filter (fun a => a ≠ "")).length
  let padRows :=
    if q.question_type = "TF" then List.replicate (2 - answers_written) blankRow
    else List.replicate (max 4 answers_written - answers_written) blankRow
  questionHeadRow q :: (contRows ++ padRows ++ [blankRow])

/-- The "Questions" worksheet laid out by `create_xlsx_output`
(markdown_to_xlsx.py:190-237) as its row grid.  The `debug_stats` argument is
taken exactly as the source takes it; the Questions-sheet code (lines
190-237) never reads it — only the separate Debug sheet does.  Styling,
column widths, the Debug sheet and file saving are not content of the
Questions sheet and are outside the model. -/
def create_xlsx_output (questions : List Question) (debug_stats : DebugStats) : List Row :=
  headerRow :: questions.flatMap questionRows

/-! ## csv_formatter.py: format_csv_for_converter -/

/-- `format_csv_for_converter` (csv_formatter.py:11-96) as a row transform:
the same skip conditions as `extract_csv_content`, then the schema rewrite
with the quiz/final source tag.  `input_path` feeds the type auto-detection
of lines 57-66 (hoisted out of the loop: it does not depend on the row);
`question_type` is the optional explicit argument.  The output is the list of
written data rows (the header row is constant).  `outRowOf` is the per-row
body (csv_formatter.py:40-94) given the already-built type tag. -/
def outRowOf (typeTag : String) (row : CsvRow) : List OutRow :=
  if row.question_stem = "" ∨ pyStrip row.question_stem = "" then []
  else
    let question_stem := pyStrip row.question_stem
    if csvNoise question_stem ∨ ¬ ((csvAnswers row).any (fun a => pyStrip a ≠ "")) then []
    else
      let question_number := pyStrip row.question_number
      let source_id :=
        if litPre "P".data question_number.data ∧ question_number.length > 1 then
          "PREP FL" ++ typeTag ++ " P." ++ pyDrop 1 question_number ++ "."
        else if question_number ≠ "" then
          "PREP FL" ++ typeTag ++ " " ++ question_number ++ "."
        else "PREP FL" ++ typeTag ++ "."
      let fr : OutRow :=
        ⟨question_stem, pyStrip row.answerA, pyStrip row.answerB, pyStrip row.answerC,
         pyStrip row.answerD, pyStrip row.correct_answer, "", source_id⟩
      if fr.question ≠ "" ∧ (fr.c1 ≠ "" ∨ fr.c2 ≠ "" ∨ fr.c3 ≠ "" ∨ fr.c4 ≠ "") then [fr]
      else []

def format_csv_for_converter (input_path : String) (question_type : Option String)
    (rows : List CsvRow) : List OutRow :=
  let detected :=
    match question_type with
    | some t => t
    | none =>
      if containsSub "Quiz" input_path then "Quiz"
      else if containsSub "Final" input_path then "Final"
      else ""
  let typeTag := if detected ≠ "" then " " ++ detected else ""
  rows.flatMap (outRowOf typeTag)

/-! ## Definitions written from the spec's words (for refinement claims)

These two definitions deliberately follow the *claim text*, not the source;
the theorems below compare them with the source-derived definitions. -/

/-- Modelled from the spec (claim C2): a stable sort of the records by the
key *pair* (lowercased question text, original-case question text), compared
lexicographically as Python compares tuples. -/
def sortRecordsByPairKey (l : List QRecord) : List QRecord :=
  List.insertionSort
    (fun a b =>
      pyStrLt (pyLower a.question) (pyLower b.question) = true ∨
        (pyLower a.question = pyLower b.question ∧ pyStrLe a.question b.question = true)) l

/-- Modelled from the spec (claim C7, as literally stated): map *each*
collected index `i` to `chr(65+i)` — with no range filter — sort by index,
and join with `", "` when more than one letter. -/
def lettersOfIndicesClaim (l : List Int) : String :=
  let letters := (List.insertionSort (fun a b : Int => a ≤ b) l).map
    (fun idx => chrS (Char.ofNat (65 + idx).toNat))
  if letters.length > 1 then joinSep ", " letters
  else
    match letters with
    | [] => ""
    | x :: _ => x

/-- Modelled from the spec (claim C7 as amended): indices outside `[0, 26)`
are dropped before the letter mapping; otherwise as the claim says — filter,
sort by index, map `i ↦ chr(65+i)`, join with `", "` when more than one
letter, the single letter when one, `""` when none. -/
def lettersOfIndicesAmended (l : List Int) : String :=
  let letters := (List.insertionSort (fun a b : Int => a ≤ b)
      (l.filter (fun i => 0 ≤ i ∧ i < 26))).map
    (fun idx => chrS (Char.ofNat (65 + idx).toNat))
  if letters.length > 1 then joinSep ", " letters
  else
    match letters with
    | [] => ""
    | x :: _ => x

/-! ## Concrete data used by witnesses and counterexamples -/

/-- The writer-side record view of a question handed to `create_xlsx_output`:
its question text, its full choice list, the letter of its 1-based correct
index (`chr(64 + correct)`), and its Meta Value (the section id).  This is
the record form in which a written question set is normalized and hashed for
the round-trip property (claim C1). -/
def writtenRecord (q : Question) : QRecord :=
  ⟨q.question, q.answers, chrS (Char.ofNat (64 + q.correct)), q.section_id⟩

/-- The parser invariants under which a question reaches the writer
(established by `parse_markdown_questions` for every question it emits, and
stated here as the domain of the round-trip theorem): stripped non-empty
question text; the answer list is a non-empty block of choices with
non-blank strip followed only by padding `""` entries; the section id is
stripped; the correct index points at a real choice and is within letter
range (`A`–`Z`). -/
def wfQuestion (q : Question) : Prop :=
  q.answers = q.answers.takeWhile (fun a => a ≠ "")
      ++ List.replicate (q.answers.length - (q.answers.takeWhile (fun a => a ≠ "")).length) "" ∧
  q.answers.takeWhile (fun a => a ≠ "") ≠ [] ∧
  (∀ a ∈ q.answers.takeWhile (fun a => a ≠ ""), pyStrip a ≠ "") ∧
  pyStrip q.question = q.question ∧ q.question ≠ "" ∧
  pyStrip q.section_id = q.section_id ∧
  1 ≤ q.correct ∧ q.correct ≤ (q.answers.takeWhile (fun a => a ≠ "")).length ∧ q.correct ≤ 26

instance (q : Question) : Decidable (wfQuestion q) := by
  unfold wfQuestion; infer_instance

/-- The record that re-extracting a written well-formed question produces:
stripped non-padding choices, the letter of the marked index. -/
def reextractedRecord (q : Question) : QRecord :=
  ⟨q.question, (q.answers.takeWhile (fun a => a ≠ "")).map pyStrip,
   convert_indices_to_letter [(q.correct : Int) - 1], q.section_id⟩

/-- The flush of an optional in-flight question (the `if current_question:`
block of content_validator.py:104-111 and 132-139). -/
def flushOpt (st : Option PendingQ) : List QRecord :=
  match st with
  | some p => [finishPending p]
  | none => []

/-- The extractor's state after consuming the written rows of question `q`
up to (but not including) answer index `k`: the stripped non-padding choices
among the first `k`, and the correct index once its row has passed. -/
def pendingAt (q : Question) (ne : List String) (k : Nat) : PendingQ :=
  ⟨q.question, (ne.take k).map pyStrip,
   if q.correct ≤ k then [(q.correct : Int) - 1] else [], q.section_id⟩

/-- A Questions sheet holding one question with 27 choices whose 27th choice
carries the Correct marker (used to refute claim C7's unrestricted letter
mapping: the extractor collects index 26, which the conversion drops). -/
def sheet27 : List Row :=
  headerRow
    :: (⟨some "MC", some "Has 27 choices?", some "", some "c", none, some "ID", some ""⟩ : Row)
    :: (List.replicate 25 (⟨none, none, none, some "c", none, none, none⟩ : Row)
        ++ [⟨none, none, none, some "c", some "1", none, none⟩])

/-- A True/False markdown block (used by the claim C5 witness). -/
def tfBlock : String :=
  "\nSnow is white.\n- [x] True\n- [ ] False\n**Answer:** A"

/-- The question `parseBlock` yields for `tfBlock`. -/
def tfQ : Question :=
  ⟨"S", "1", "Snow is white.", ["True", "False"], "A", 1, "", "", "", "TF"⟩

/-- A noise CSV row (stem contains "Quiz") and a regular CSV row (used by the
claim C8 witness). -/
def noiseCsvRow : CsvRow :=
  ⟨"7", "Quiz 3 Section", "", "", "", "", ""⟩

/-- A regular CSV row kept by both tools. -/
def plainCsvRow : CsvRow :=
  ⟨"1", "2+2?", "3", "4", "", "", "B"⟩

/-- Two-question input for the claim C1 witness. -/
def witnessQs : List Question :=
  [⟨"S", "1", "Capital of France?", ["London", " Paris", "", ""], "B", 2, "", "", "SEC 1", "MC"⟩,
   ⟨"S", "2", "Snow is white.", ["True", "False"], "A", 1, "", "", "", "TF"⟩]

/-- A debug-stats value for witnesses. -/
def witnessStats : DebugStats :=
  ⟨2, false, true, [], 0⟩

/-! ### A decoder for the canonical serialization

`json.dumps` with sorted keys and compact separators is injective on the
normalized record lists; the claims about *hash mismatch* (C4) need exactly
that.  The decoders below invert the serializers defined above; the
round-trip theorems later give injectivity. -/

/-- Hex digit value accepted by the decoder (lowercase, as `json.dumps`
emits). -/
def hexVal (c : Char) : Option Nat :=
  if '0' ≤ c ∧ c ≤ '9' then some (c.toNat - 48)
  else if 'a' ≤ c ∧ c ≤ 'f' then some (c.toNat - 87)
  else none

/-- Decode one short escape character. -/
def unescChar (c : Char) : Option Char :=
  if c = '"' then some '"'
  else if c = '\\' then some '\\'
  else if c = 'b' then some '\x08'
  else if c = 'f' then some '\x0c'
  else if c = 'n' then some '\n'
  else if c = 'r' then some '\r'
  else if c = 't' then some '\t'
  else none

/-- Prepend a decoded character to a string-decoder result. -/
def consDecoded (c : Char) : Option (List Char × List Char) → Option (List Char × List Char)
  | some (cs, r) => some (c :: cs, r)
  | none => none

/-- Decode one escape sequence (after the backslash): a short escape or a
`\uXXXX` escape, recombining a high/low surrogate pair into one code
point. -/
def decodeEscTok : List Char → Option (Char × List Char)
  | 'u' :: a :: b :: d :: e :: rest3 =>
    (match hexVal a, hexVal b, hexVal d, hexVal e with
     | some va, some vb, some vd, some ve =>
       let v := ((va * 16 + vb) * 16 + vd) * 16 + ve
       if 0xd800 ≤ v ∧ v < 0xdc00 then
         match rest3 with
         | b1 :: b2 :: a2 :: b2x :: d2 :: e2 :: rest4 =>
           if b1 = '\\' ∧ b2 = 'u' then
             match hexVal a2, hexVal b2x, hexVal d2, hexVal e2 with
             | some wa, some wb, some wd, some we =>
               let w := ((wa * 16 + wb) * 16 + wd) * 16 + we
               if 0xdc00 ≤ w ∧ w < 0xe000 then
                 some (Char.ofNat (0x10000 + (v - 0xd800) * 0x400 + (w - 0xdc00)), rest4)
               else none
             | _, _, _, _ => none
           else none
         | _ => none
       else some (Char.ofNat v, rest3)
     | _, _, _, _ => none)
  | e :: rest2 =>
    (match unescChar e with
     | some d => some (d, rest2)
     | none => none)
  | [] => none

/-- Decode the body of a JSON string up to and including its closing quote,
returning the decoded characters and the remaining input.  Fuelled by an
upper bound on the number of decoded characters. -/
def decodeStr : Nat → List Char → Option (List Char × List Char)
  | _, [] => none
  | fuel, c :: rest =>
    if c = '"' then some ([], rest)
    else
      match fuel with
      | 0 => none
      | fuel2 + 1 =>
        if c = '\\' then
          match decodeEscTok rest with
          | some (d, rest2) => consDecoded d (decodeStr fuel2 rest2)
          | none => none
        else consDecoded c (decodeStr fuel2 rest)

/-- Decode a JSON string token (opening quote included). -/
def decodeStrTok : List Char → Option (String × List Char)
  | '"' :: rest =>
    (match decodeStr rest.length rest with
     | some (cs, r) => some (String.mk cs, r)
     | none => none)
  | _ => none

/-- Decode the items of a JSON string array after the first one, fuelled by
an upper bound on the remaining item count. -/
def decodeStrMore : Nat → List String → List Char → Option (List String × List Char)
  | _, acc, ']' :: rest => some (acc.reverse, rest)
  | fuel + 1, acc, ',' :: rest =>
    (match decodeStrTok rest with
     | some (x, r) => decodeStrMore fuel (x :: acc) r
     | none => none)
  | _, _, _ => none

/-- Decode a JSON array of strings. -/
def decodeStrArr (s : List Char) : Option (List String × List Char) :=
  match s with
  | '[' :: ']' :: rest => some ([], rest)
  | '[' :: rest =>
    (match decodeStrTok rest with
     | some (x, r) => decodeStrMore r.length [x] r
     | none => none)
  | _ => none

/-- Expect a literal prefix, returning the rest. -/
def expectLit : List Char → List Char → Option (List Char)
  | [], s => some s
  | _ :: _, [] => none
  | c :: cs, d :: ds => if c = d then expectLit cs ds else none

/-- Decode one serialized record (the fixed sorted-keys shape of
`recordJson`). -/
def decodeRec (s : List Char) : Option (QRecord × List Char) :=
  match expectLit "\x7b\"choices\":".data s with
  | none => none
  | some s1 =>
    match decodeStrArr s1 with
    | none => none
    | some (choices, s2) =>
      match expectLit ",\"correct_answer\":".data s2 with
      | none => none
      | some s3 =>
        match decodeStrTok s3 with
        | none => none
        | some (ca, s4) =>
          match expectLit ",\"question\":".data s4 with
          | none => none
          | some s5 =>
            match decodeStrTok s5 with
            | none => none
            | some (qu, s6) =>
              match expectLit ",\"source\":".data s6 with
              | none => none
              | some s7 =>
                match decodeStrTok s7 with
                | none => none
                | some (src, s8) =>
                  match expectLit "\x7d".data s8 with
                  | none => none
                  | some s9 => some (⟨qu, choices, ca, src⟩, s9)

/-- Decode records after the first one, fuelled by an upper bound on the
remaining item count. -/
def decodeRecMore : Nat → List QRecord → List Char → Option (List QRecord × List Char)
  | _, acc, ']' :: rest => some (acc.reverse, rest)
  | fuel + 1, acc, ',' :: rest =>
    (match decodeRec rest with
     | some (x, r) => decodeRecMore fuel (x :: acc) r
     | none => none)
  | _, _, _ => none

/-- Decode the whole canonical serialization back to a record list. -/
def decodeContent (s : String) : Option (List QRecord × List Char) :=
  match s.data with
  | '[' :: ']' :: rest => some ([], rest)
  | '[' :: rest =>
    (match decodeRec rest with
     | some (x, r) => decodeRecMore r.length [x] r
     | none => none)
  | _ => none

/-! # Theorems

First the helper lemmas, then one theorem per claim (with its witness or
counterexample where required). -/

/-- Code-point order on character lists is total. -/
theorem codeLe_total : ∀ x y : List Char, codeLe x y = true ∨ codeLe y x = true
  | [], _ => Or.inl rfl
  | _ :: _, [] => Or.inr rfl
  | c :: cs, d :: ds => by
    rcases Nat.lt_trichotomy c.toNat d.toNat with h | h | h
    · left; simp [codeLe, h]
    · rcases codeLe_total cs ds with ih | ih
      · left; simp [codeLe, h, ih]
      · right; simp [codeLe, h.symm, ih]
    · right; simp [codeLe, h]

/-- Code-point order on character lists is transitive. -/
theorem codeLe_trans :
    ∀ x y z : List Char, codeLe x y = true → codeLe y z = true → codeLe x z = true
  | [], _, _ => by intro _ _; rfl
  | c :: cs, [], _ => by intro h _; simp [codeLe] at h
  | c :: cs, d :: ds, [] => by intro _ h; simp [codeLe] at h
  | c :: cs, d :: ds, e :: es => by
    intro h₁ h₂
    simp only [codeLe, Bool.or_eq_true, Bool.and_eq_true, decide_eq_true_eq] at h₁ h₂ ⊢
    rcases h₁ with h₁ | ⟨h₁e, h₁r⟩ <;> rcases h₂ with h₂ | ⟨h₂e, h₂r⟩
    · exact Or.inl (h₁.trans h₂)
    · exact Or.inl (h₂e ▸ h₁)
    · exact Or.inl (h₁e ▸ h₂)
    · exact Or.inr ⟨h₁e.trans h₂e, codeLe_trans cs ds es h₁r h₂r⟩

/-- Strings with equal character lists are equal. -/
theorem string_eq_of_data_eq {s t : String} (h : s.data = t.data) : s = t := by
  cases s; cases t; exact congrArg String.mk h

/-- Characters with equal code points are equal. -/
theorem char_eq_of_toNat_eq {c d : Char} (h : c.toNat = d.toNat) : c = d :=
  Char.ext (UInt32.ext h)

/-- Code-point order on character lists is antisymmetric. -/
theorem codeLe_antisymm :
    ∀ x y : List Char, codeLe x y = true → codeLe y x = true → x = y
  | [], [] => by intro _ _; rfl
  | [], _ :: _ => by intro _ h; simp [codeLe] at h
  | _ :: _, [] => by intro h _; simp [codeLe] at h
  | c :: cs, d :: ds => by
    intro h₁ h₂
    simp only [codeLe, Bool.or_eq_true, Bool.and_eq_true, decide_eq_true_eq] at h₁ h₂
    rcases h₁ with h₁ | ⟨h₁e, h₁r⟩ <;> rcases h₂ with h₂ | ⟨h₂e, h₂r⟩ <;> try omega
    rw [char_eq_of_toNat_eq h₁e, codeLe_antisymm cs ds h₁r h₂r]

/-- The record order `recLe` is total. -/
theorem recLe_total : ∀ a b : QRecord, recLe a b ∨ recLe b a :=
  fun a b => codeLe_total a.question.data b.question.data

/-- The record order `recLe` is transitive. -/
theorem recLe_trans : ∀ a b c : QRecord, recLe a b → recLe b c → recLe a c :=
  fun a b c => codeLe_trans a.question.data b.question.data c.question.data

/-- `recLe` both ways means equal question texts. -/
theorem question_eq_of_recLe_antisymm {a b : QRecord}
    (h₁ : recLe a b) (h₂ : recLe b a) : a.question = b.question :=
  string_eq_of_data_eq (codeLe_antisymm a.question.data b.question.data h₁ h₂)

/-- C9: The "Questions" sheet written by `create_xlsx_output` is a function
of the question list alone — two runs with the same questions and arbitrary
different debug statistics (in particular different `keep_prefix` flags)
produce identical Questions-sheet rows.  (markdown_to_xlsx.py:190-237 never
reads `debug_stats`; only the Debug sheet, lines 239-307, does.) -/
theorem C9_questions_sheet_ignores_debug_stats :
    ∀ (questions : List Question) (ds1 ds2 : DebugStats),
      create_xlsx_output questions ds1 = create_xlsx_output questions ds2 :=
  fun _ _ _ => rfl

/-- C10: in every report of `validate_conversion`, `validation_passed`
coincides with `hash_match`, and it is `true` exactly when the two content
hashes are equal — the question counts (`count_match`) play no part in the
pass/fail outcome. -/
theorem C10_validation_passed_is_hash_match :
    ∀ original converted : List QRecord,
      (validate_conversion original converted).validation_passed
          = (validate_conversion original converted).hash_match ∧
        ((validate_conversion original converted).validation_passed = true ↔
          generate_content_hash original = generate_content_hash converted) := by
  intro o c
  refine ⟨rfl, ?_⟩
  simp [validate_conversion]

/-- C6: the markdown block
`### Question 1 / Capital of France? / - [ ] London / - [x] Paris /
**Answer:** B` parses to one record with choices London, Paris padded with
two empty strings to length 4, correct index 2 (from the `[x]` marker),
question type "MC"; the second conjunct varies the `**Answer:**` letter to
`A` and shows the correct index is still 2 — the checked marker, not the
metadata letter, determines it. -/
theorem C6_capital_of_france_block :
    parse_markdown_questions "SEC"
        ["\nCapital of France?\n- [ ] London\n- [x] Paris\n**Answer:** B"]
      = [⟨"SEC", "1", "Capital of France?", ["London", "Paris", "", ""], "B", 2, "", "", "", "MC"⟩] ∧
    parse_markdown_questions "SEC"
        ["\nCapital of France?\n- [ ] London\n- [x] Paris\n**Answer:** A"]
      = [⟨"SEC", "1", "Capital of France?", ["London", "Paris", "", ""], "A", 2, "", "", "", "MC"⟩] := by
  constructor <;> rfl

/-- A comprehension `[f a for a in l if P a]` as filter-then-map. -/
theorem filterMap_if {α β : Type} (P : α → Prop) [DecidablePred P] (f : α → β) (l : List α) :
    l.filterMap (fun a => if P a then some (f a) else none)
      = (l.filter (fun a => decide (P a))).map f := by
  induction l with
  | nil => rfl
  | cons a t ih => by_cases h : P a <;> simp [List.filterMap_cons, h, ih]

/-- Filtering commutes with the integer sort (both sides are sorted and are
permutations of each other, and `≤` on `Int` is antisymmetric). -/
theorem filter_insertionSort_int (p : Int → Bool) (l : List Int) :
    (List.insertionSort (fun a b : Int => a ≤ b) l).filter p
      = List.insertionSort (fun a b : Int => a ≤ b) (l.filter p) := by
  haveI : IsAntisymm Int (fun a b : Int => a ≤ b) := ⟨fun _ _ h h' => le_antisymm h h'⟩
  haveI : IsTotal Int (fun a b : Int => a ≤ b) := ⟨fun a b => le_total a b⟩
  haveI : IsTrans Int (fun a b : Int => a ≤ b) := ⟨fun _ _ _ h h' => le_trans h h'⟩
  have h1 : ((List.insertionSort (fun a b : Int => a ≤ b) l).filter p).Perm
      (List.insertionSort (fun a b : Int => a ≤ b) (l.filter p)) :=
    ((List.perm_insertionSort _ l).filter p).trans
      (List.perm_insertionSort _ (l.filter p)).symm
  have h2 := (List.sorted_insertionSort (fun a b : Int => a ≤ b) l).filter p
  have h3 := List.sorted_insertionSort (fun a b : Int => a ≤ b) (l.filter p)
  exact List.eq_of_perm_of_sorted h1 h2 h3

/-- C7 (amended): `convert_indices_to_letter` maps each collected index `i`
*in letter range `0 ≤ i < 26`* to `chr(65+i)` (out-of-range indices are
dropped), sorts by index, and joins with `", "` when more than one letter; a
single letter stands alone and no letters give `""`. -/
theorem C7_letters_amended :
    ∀ l : List Int, convert_indices_to_letter l = lettersOfIndicesAmended l := by
  intro l
  unfold convert_indices_to_letter lettersOfIndicesAmended
  by_cases h : l = []
  · subst h; rfl
  · rw [if_neg h,
      filterMap_if (fun idx : Int => 0 ≤ idx ∧ idx < 26)
        (fun idx => chrS (Char.ofNat (65 + idx).toNat)),
      filter_insertionSort_int]

/-- C7 (counterexample to the unrestricted mapping): at index 26 the code
yields `""` while the claim's mapping `i ↦ chr(65+i)` yields `"["`; the
extractor does assemble such an index from a sheet whose question has 27
choices with the Correct marker on the 27th. -/
theorem C7_unfiltered_mapping_counterexample :
    convert_indices_to_letter [(26 : Int)] = "" ∧
      lettersOfIndicesClaim [(26 : Int)] = "[" ∧
      extract_xlsx_content sheet27
        = [⟨"Has 27 choices?", List.replicate 27 "c", "", ""⟩] := by
  refine ⟨rfl, rfl, ?_⟩
  decide

/-- Code-point order is reflexive. -/
theorem codeLe_refl (x : List Char) : codeLe x x = true :=
  (codeLe_total x x).elim id id

/-- Python string `<=` is reflexive. -/
theorem pyStrLe_refl (s : String) : pyStrLe s s = true :=
  codeLe_refl s.data

/-- `orderedInsert` and filtering on a question text: the inserted record
lands before every already-present record with the same text (its key is
never strictly below the insertion point), so the text's filter gains the
new record at the front when texts match and is untouched otherwise. -/
theorem filter_orderedInsert_q (t : String) (a : QRecord) :
    ∀ L : List QRecord,
      (List.orderedInsert recLe a L).filter (fun r => r.question = t)
        = if a.question = t then a :: L.filter (fun r => r.question = t)
          else L.filter (fun r => r.question = t)
  | [] => by
    show [a].filter (fun r => r.question = t) = _
    by_cases h : a.question = t
    · rw [if_pos h]; simp [List.filter, h]
    · rw [if_neg h]; simp [List.filter, h]
  | b :: L => by
    unfold List.orderedInsert
    by_cases hle : recLe a b
    · rw [if_pos hle]
      by_cases h : a.question = t
      · rw [if_pos h]; simp [List.filter_cons, h]
      · rw [if_neg h]; simp [List.filter_cons, h]
    · rw [if_neg hle]
      have hbat : b.question ≠ a.question := fun he => hle (by
        show pyStrLe a.question b.question = true
        rw [he]
        exact pyStrLe_refl a.question)
      rw [List.filter_cons, List.filter_cons, filter_orderedInsert_q t a L]
      by_cases h : a.question = t
      · have hb : ¬ (b.question = t) := fun hbt => hbat (hbt.trans h.symm)
        rw [if_pos h]
        simp [hb, h]
      · rw [if_neg h]
        by_cases hb : b.question = t
        · simp [hb, h]
        · simp [hb, h]

/-- Stability of the record sort on each question text: filtering the sorted
list to one text returns the input's records with that text in input
order. -/
theorem filter_sortRecords_q (t : String) : ∀ l : List QRecord,
    (sortRecords l).filter (fun r => r.question = t)
      = l.filter (fun r => r.question = t)
  | [] => rfl
  | a :: l => by
    show (List.orderedInsert recLe a (sortRecords l)).filter
        (fun r => r.question = t) = _
    rw [filter_orderedInsert_q, filter_sortRecords_q t l, List.filter_cons]
    by_cases h : a.question = t
    · rw [if_pos h]; simp [h]
    · rw [if_neg h]; simp [h]

/-- C2 (amended): `generate_content_hash` sorts the records by the single
key *original-case question text* (not by the (lowercased, original-case)
pair): the serialized record order lists the original question texts in
nondecreasing code-point order, is a permutation of the input, and ties
(equal question texts) keep input order — for every question text, the
equal-text records of the sorted order are exactly the input's records with
that text, in input order. -/
theorem C2_sorted_by_original_question :
    ∀ l : List QRecord,
      ((sortRecords l).map (fun q => q.question)).Sorted (fun a b => pyStrLe a b = true) ∧
        (sortRecords l).Perm l ∧
        ∀ t : String,
          (sortRecords l).filter (fun r => r.question = t)
            = l.filter (fun r => r.question = t) := by
  intro l
  refine ⟨?_, List.perm_insertionSort recLe l, fun t => filter_sortRecords_q t l⟩
  haveI : IsTotal QRecord recLe := ⟨recLe_total⟩
  haveI : IsTrans QRecord recLe := ⟨recLe_trans⟩
  have h := List.sorted_insertionSort recLe l
  unfold sortRecords
  rw [List.Sorted, List.pairwise_map]
  exact h

/-- C2 (counterexample): on records with question texts `"B"` and `"a"` the
code's sort (by original-case text: `"B" < "a"`) differs from the claimed
pair-key sort (lowercased first: `"a" < "b"`), and the resulting serialized
orders — hence the digests — differ. -/
theorem C2_pair_key_counterexample :
    sortRecords [⟨"B", ["x"], "A", ""⟩, ⟨"a", ["y"], "A", ""⟩]
        ≠ sortRecordsByPairKey [⟨"B", ["x"], "A", ""⟩, ⟨"a", ["y"], "A", ""⟩] ∧
      generate_content_hash [⟨"B", ["x"], "A", ""⟩, ⟨"a", ["y"], "A", ""⟩]
        ≠ sha256_hex (contentJson ((sortRecordsByPairKey
            [⟨"B", ["x"], "A", ""⟩, ⟨"a", ["y"], "A", ""⟩]).map normalizeRecord)) := by
  decide

/-- Two sorted lists that are permutations of each other are equal, when
records of the first list are determined by their question text (the local
antisymmetry that the key-based sort needs). -/
theorem eq_of_perm_sorted_keyinj :
    ∀ l₁ l₂ : List QRecord, l₁.Perm l₂ → l₁.Sorted recLe → l₂.Sorted recLe →
      (∀ x ∈ l₁, ∀ y ∈ l₁, x.question = y.question → x = y) → l₁ = l₂
  | [], _, h, _, _, _ => (h.symm.eq_nil).symm
  | a :: t₁, [], h, _, _, _ => absurd h (by simp)
  | a :: t₁, b :: t₂, h, hs₁, hs₂, hinj => by
    have hab : a = b := by
      have ha : a ∈ b :: t₂ := h.subset (List.mem_cons_self a t₁)
      have hb : b ∈ a :: t₁ := h.symm.subset (List.mem_cons_self b t₂)
      rcases List.mem_cons.mp ha with h1 | h1
      · exact h1
      rcases List.mem_cons.mp hb with h2 | h2
      · exact h2.symm
      have r1 : recLe a b := List.rel_of_sorted_cons hs₁ b h2
      have r2 : recLe b a := List.rel_of_sorted_cons hs₂ a h1
      exact hinj a (List.mem_cons_self a t₁) b (List.mem_cons.mpr (Or.inr h2))
        (question_eq_of_recLe_antisymm r1 r2)
    subst hab
    have := eq_of_perm_sorted_keyinj t₁ t₂ h.cons_inv hs₁.of_cons hs₂.of_cons
      (fun x hx y hy hq =>
        hinj x (List.mem_cons_of_mem a hx) y (List.mem_cons_of_mem a hy) hq)
    rw [this]

/-- When the question texts are pairwise distinct, the record sort depends
only on the multiset of records: any permutation sorts to the same list. -/
theorem sortRecords_eq_of_perm {l l' : List QRecord} (h : l.Perm l')
    (hnd : (l.map (fun q => q.question)).Nodup) : sortRecords l = sortRecords l' := by
  haveI : IsTotal QRecord recLe := ⟨recLe_total⟩
  haveI : IsTrans QRecord recLe := ⟨recLe_trans⟩
  apply eq_of_perm_sorted_keyinj
  · exact (List.perm_insertionSort recLe l).trans
      (h.trans (List.perm_insertionSort recLe l').symm)
  · exact List.sorted_insertionSort recLe l
  · exact List.sorted_insertionSort recLe l'
  · intro x hx y hy hq
    exact List.inj_on_of_nodup_map hnd
      ((List.mem_insertionSort recLe).mp hx) ((List.mem_insertionSort recLe).mp hy) hq

/-- C3 (amended): hashing the same record list twice yields the same digest,
and when the records carry pairwise-distinct question texts, every
permutation of the list yields the same digest.  (For duplicate question
texts the stable sort preserves input order among equals, so permuting such
records can change the digest — see the counterexample.) -/
theorem C3_hash_idempotent_and_perm_invariant :
    (∀ l : List QRecord, generate_content_hash l = generate_content_hash l) ∧
      ∀ l l' : List QRecord, l.Perm l' → (l.map (fun q => q.question)).Nodup →
        generate_content_hash l = generate_content_hash l' := by
  refine ⟨fun _ => rfl, fun l l' h hnd => ?_⟩
  unfold generate_content_hash
  rw [sortRecords_eq_of_perm h hnd]

/-- C3 (counterexample to unrestricted permutation invariance): two records
share the question text `"q here"` but differ in choices; swapping them
changes the digest, because the sort key is only the question text and the
stable sort keeps input order among equal keys. -/
theorem C3_perm_counterexample :
    (([⟨"q here", ["a"], "A", ""⟩, ⟨"q here", ["b"], "A", ""⟩] : List QRecord).Perm
        [⟨"q here", ["b"], "A", ""⟩, ⟨"q here", ["a"], "A", ""⟩]) ∧
      generate_content_hash [⟨"q here", ["a"], "A", ""⟩, ⟨"q here", ["b"], "A", ""⟩]
        ≠ generate_content_hash [⟨"q here", ["b"], "A", ""⟩, ⟨"q here", ["a"], "A", ""⟩] := by
  decide

/-- C3 witness: the amended theorem applied at a concrete two-record
permutation with distinct question texts. -/
theorem C3_witness :
    (([⟨"first q", ["a"], "A", ""⟩, ⟨"second q", ["b"], "B", ""⟩] : List QRecord).Perm
        [⟨"second q", ["b"], "B", ""⟩, ⟨"first q", ["a"], "A", ""⟩]) ∧
      (([⟨"first q", ["a"], "A", ""⟩, ⟨"second q", ["b"], "B", ""⟩] : List QRecord).map
        (fun q => q.question)).Nodup ∧
      generate_content_hash [⟨"first q", ["a"], "A", ""⟩, ⟨"second q", ["b"], "B", ""⟩]
        = generate_content_hash [⟨"second q", ["b"], "B", ""⟩, ⟨"first q", ["a"], "A", ""⟩] :=
  ⟨by decide, by decide,
    C3_hash_idempotent_and_perm_invariant.2 _ _ (by decide) (by decide)⟩

/-- A noise row (stripped stem equal to `"Question Stem"` or containing
`"Final Exam"` or `"Quiz"`) produces no record in `extract_csv_content`. -/
theorem csvRecordOf_noise_nil {row : CsvRow}
    (h : pyStrip row.question_stem = "Question Stem" ∨
      containsSub "Final Exam" (pyStrip row.question_stem) = true ∨
      containsSub "Quiz" (pyStrip row.question_stem) = true) :
    csvRecordOf row = [] := by
  unfold csvRecordOf
  by_cases h0 : row.question_stem = "" ∨ pyStrip row.question_stem = ""
  · rw [if_pos h0]
  · rw [if_neg h0, if_pos]
    left
    unfold csvNoise
    rcases h with h | h | h <;> simp [h]

/-- A noise row produces no output row in `format_csv_for_converter`. -/
theorem outRowOf_noise_nil (typeTag : String) {row : CsvRow}
    (h : pyStrip row.question_stem = "Question Stem" ∨
      containsSub "Final Exam" (pyStrip row.question_stem) = true ∨
      containsSub "Quiz" (pyStrip row.question_stem) = true) :
    outRowOf typeTag row = [] := by
  unfold outRowOf
  by_cases h0 : row.question_stem = "" ∨ pyStrip row.question_stem = ""
  · rw [if_pos h0]
  · rw [if_neg h0, if_pos]
    left
    unfold csvNoise
    rcases h with h | h | h <;> simp [h]

/-- C8: a CSV row whose stripped question stem is the literal
`"Question Stem"` or contains `"Final Exam"` or `"Quiz"` appears neither in
the records of `extract_csv_content` nor in the rows written by
`format_csv_for_converter`: deleting such a row (at any position) leaves
both outputs unchanged. -/
theorem C8_noise_never_output :
    ∀ (pre post : List CsvRow) (row : CsvRow) (input_path : String)
      (question_type : Option String),
      (pyStrip row.question_stem = "Question Stem" ∨
        containsSub "Final Exam" (pyStrip row.question_stem) = true ∨
        containsSub "Quiz" (pyStrip row.question_stem) = true) →
      extract_csv_content (pre ++ row :: post) = extract_csv_content (pre ++ post) ∧
        format_csv_for_converter input_path question_type (pre ++ row :: post)
          = format_csv_for_converter input_path question_type (pre ++ post) := by
  intro pre post row input_path question_type h
  constructor
  · unfold extract_csv_content
    simp [csvRecordOf_noise_nil h]
  · unfold format_csv_for_converter
    simp [outRowOf_noise_nil _ h]

/-- C8 witness: the theorem applied to a concrete noise row (stem
`"Quiz 3 Section"`) next to a regular row. -/
theorem C8_witness :
    (pyStrip noiseCsvRow.question_stem = "Question Stem" ∨
      containsSub "Final Exam" (pyStrip noiseCsvRow.question_stem) = true ∨
      containsSub "Quiz" (pyStrip noiseCsvRow.question_stem) = true) ∧
      (extract_csv_content ([] ++ noiseCsvRow :: [plainCsvRow])
          = extract_csv_content ([] ++ [plainCsvRow]) ∧
        format_csv_for_converter "input.csv" none ([] ++ noiseCsvRow :: [plainCsvRow])
          = format_csv_for_converter "input.csv" none ([] ++ [plainCsvRow])) :=
  ⟨by decide,
    C8_noise_never_output [] [plainCsvRow] noiseCsvRow "input.csv" none (by decide)⟩

/-- Lowercasing the empty string gives the empty string. -/
theorem pyLower_empty : pyLower "" = "" := by
  decide

/-- Stripping the empty string gives the empty string. -/
theorem pyStrip_empty : pyStrip "" = "" := by
  decide

/-- The code's True/False test (which drops blank-stripping choices before
forming the set) is equivalent to the claim's formulation (mapping all the
choices): when either of the two choices strips to blank, both sides fail —
the code's set is too small, the claim's set contains `""`. -/
theorem isTFChoices_iff (choices : List String) :
    isTFChoices choices ↔
      (choices.length = 2 ∧
        (choices.map (fun c => pyLower (pyStrip c))).toFinset
          = ({"true", "false"} : Finset String)) := by
  unfold isTFChoices
  constructor
  · rintro ⟨h2, hset⟩
    refine ⟨h2, ?_⟩
    obtain ⟨c1, c2, rfl⟩ := List.length_eq_two.mp h2
    by_cases e1 : pyStrip c1 = "" <;> by_cases e2 : pyStrip c2 = ""
    · simp [e1, e2] at hset
      exact absurd hset.symm (by decide)
    · simp [e1, e2] at hset
      have ht : ("true" : String) ∈ ({"true", "false"} : Finset String) := by decide
      have hf : ("false" : String) ∈ ({"true", "false"} : Finset String) := by decide
      rw [← hset] at ht hf
      simp at ht hf
      exact absurd (ht.trans hf.symm) (by decide)
    · simp [e1, e2] at hset
      have ht : ("true" : String) ∈ ({"true", "false"} : Finset String) := by decide
      have hf : ("false" : String) ∈ ({"true", "false"} : Finset String) := by decide
      rw [← hset] at ht hf
      simp at ht hf
      exact absurd (ht.trans hf.symm) (by decide)
    · refine hset.symm ▸ ?_
      simp [e1, e2]
  · rintro ⟨h2, hset⟩
    refine ⟨h2, ?_⟩
    obtain ⟨c1, c2, rfl⟩ := List.length_eq_two.mp h2
    by_cases e1 : pyStrip c1 = "" <;> by_cases e2 : pyStrip c2 = ""
    · exfalso
      have : ("" : String) ∈ ({"true", "false"} : Finset String) := by
        rw [← hset]; simp [e1, e2, pyLower_empty]
      exact absurd this (by decide)
    · exfalso
      have : ("" : String) ∈ ({"true", "false"} : Finset String) := by
        rw [← hset]; simp [e1, pyLower_empty]
      exact absurd this (by decide)
    · exfalso
      have : ("" : String) ∈ ({"true", "false"} : Finset String) := by
        rw [← hset]; simp [e2, pyLower_empty]
      exact absurd this (by decide)
    · refine hset ▸ ?_
      simp [e1, e2]

/-- A True/False pair has both choices non-blank (in both the raw and the
stripped sense). -/
theorem isTFChoices_shape {choices : List String} (h : isTFChoices choices) :
    ∃ c1 c2, choices = [c1, c2] ∧ pyStrip c1 ≠ "" ∧ pyStrip c2 ≠ "" ∧ c1 ≠ "" ∧ c2 ≠ "" := by
  obtain ⟨h2, hset⟩ := h
  obtain ⟨c1, c2, rfl⟩ := List.length_eq_two.mp h2
  by_cases e1 : pyStrip c1 = "" <;> by_cases e2 : pyStrip c2 = ""
  · simp [e1, e2] at hset
    exact absurd hset.symm (by decide)
  · simp [e1, e2] at hset
    have ht : ("true" : String) ∈ ({"true", "false"} : Finset String) := by decide
    have hf : ("false" : String) ∈ ({"true", "false"} : Finset String) := by decide
    rw [← hset] at ht hf
    simp at ht hf
    exact absurd (ht.trans hf.symm) (by decide)
  · simp [e1, e2] at hset
    have ht : ("true" : String) ∈ ({"true", "false"} : Finset String) := by decide
    have hf : ("false" : String) ∈ ({"true", "false"} : Finset String) := by decide
    rw [← hset] at ht hf
    simp at ht hf
    exact absurd (ht.trans hf.symm) (by decide)
  · refine ⟨c1, c2, rfl, e1, e2, ?_, ?_⟩
    · intro hc; rw [hc] at e1; exact e1 rfl
    · intro hc; rw [hc] at e2; exact e2 rfl

/-- C5: an accepted markdown block is classified `"TF"` exactly when its
parsed choices are two in number with stripped, lowercased texts forming the
set `{"true", "false"}`; every other accepted block is `"MC"`; and for a TF
question the writer lays out exactly two answer rows (the head row carrying
the first answer and one continuation row) followed by exactly one blank
separator row. -/
theorem C5_tf_classification_and_rows :
    ∀ (sn : String) (qnum : Nat) (block : String) (q : Question),
      parseBlock sn qnum block = some q →
      ((q.question_type = "TF" ↔
          ((parsedChoices (blockLines block)).1.length = 2 ∧
            ((parsedChoices (blockLines block)).1.map (fun c => pyLower (pyStrip c))).toFinset
              = ({"true", "false"} : Finset String))) ∧
        (q.question_type = "TF" ∨ q.question_type = "MC") ∧
        (q.question_type = "TF" →
          questionRows q = [questionHeadRow q, answerContRow q 1, blankRow] ∧
            cellTruthyStrip (questionHeadRow q).answerCol = true ∧
            cellTruthyStrip (answerContRow q 1).answerCol = true)) := by
  intro sn qnum block q h
  simp only [parseBlock] at h
  cases hL : blockLines block with
  | nil => rw [hL] at h; exact absurd h (by simp)
  | cons qt rest =>
    rw [hL] at h
    simp only at h
    by_cases hTF : isTFChoices (parsedChoices (qt :: rest)).1
    · rw [if_pos hTF] at h
      rw [if_pos (rfl : ("TF" : String) = "TF")] at h
      obtain ⟨c1, c2, hcs, hs1, hs2, hn1, hn2⟩ := isTFChoices_shape hTF
      split at h
      · exact absurd h (by simp)
      split at h
      · exact absurd h (by simp)
      have hq := (Option.some.inj h).symm
      subst hq
      refine ⟨?_, Or.inl rfl, ?_⟩
      · simpa using (isTFChoices_iff (parsedChoices (qt :: rest)).1).mp hTF
      · intro _
        rw [hcs]
        refine ⟨?_, ?_, ?_⟩
        · simp [questionRows, List.range', hn1, hn2]
        · simp [questionHeadRow, cellTruthyStrip, hn1, hs1]
        · simp [answerContRow, cellTruthyStrip, hn2, hs2]
    · rw [if_neg hTF] at h
      rw [if_neg (by decide : ¬ ("MC" : String) = "TF")] at h
      split at h
      · exact absurd h (by simp)
      split at h
      · exact absurd h (by simp)
      have hq := (Option.some.inj h).symm
      subst hq
      refine ⟨?_, Or.inr rfl, ?_⟩
      · constructor
        · intro hc; exact absurd hc (by simp)
        · intro hc
          exact absurd ((isTFChoices_iff (parsedChoices (qt :: rest)).1).mpr hc) hTF
      · intro hc; exact absurd hc (by simp)

/-- C5 witness: the theorem applied to a concrete True/False block. -/
theorem C5_witness :
    ((tfQ.question_type = "TF" ↔
        ((parsedChoices (blockLines tfBlock)).1.length = 2 ∧
          ((parsedChoices (blockLines tfBlock)).1.map (fun c => pyLower (pyStrip c))).toFinset
            = ({"true", "false"} : Finset String))) ∧
      (tfQ.question_type = "TF" ∨ tfQ.question_type = "MC") ∧
      (tfQ.question_type = "TF" →
        questionRows tfQ = [questionHeadRow tfQ, answerContRow tfQ 1, blankRow] ∧
          cellTruthyStrip (questionHeadRow tfQ).answerCol = true ∧
          cellTruthyStrip (answerContRow tfQ 1).answerCol = true)) :=
  C5_tf_classification_and_rows "S" 1 tfBlock tfQ (by decide)

/-- A list unchanged by `dropWhile` is empty or its head fails the
predicate. -/
theorem head_not_of_dropWhile_eq {p : Char → Bool} :
    ∀ {l : List Char}, l.dropWhile p = l → l = [] ∨ ∃ c t, l = c :: t ∧ p c = false
  | [], _ => Or.inl rfl
  | c :: t, h => by
    by_cases hc : p c
    · exfalso
      rw [List.dropWhile_cons, if_pos hc] at h
      have h1 := (List.dropWhile_suffix p : t.dropWhile p <:+ t).length_le
      have h2 := congrArg List.length h
      simp at h2
      omega
    · exact Or.inr ⟨c, t, rfl, by simpa using hc⟩

/-- `dropWhile` is idempotent. -/
theorem dropWhile_idem (p : Char → Bool) : ∀ l : List Char,
    (l.dropWhile p).dropWhile p = l.dropWhile p
  | [] => rfl
  | c :: t => by
    by_cases hc : p c
    · rw [List.dropWhile_cons, if_pos hc]
      exact dropWhile_idem p t
    · rw [List.dropWhile_cons, if_neg hc, List.dropWhile_cons, if_neg hc]

/-- A prefix of a `dropWhile`-fixed list is itself `dropWhile`-fixed. -/
theorem dropWhile_fix_of_prefix {p : Char → Bool} {Z W : List Char}
    (hZ : Z.dropWhile p = Z) (hPre : W <+: Z) : W.dropWhile p = W := by
  cases hW : W with
  | nil => rfl
  | cons c t =>
    rcases head_not_of_dropWhile_eq hZ with h | ⟨d, s, hds, hd⟩
    · subst h
      rw [hW] at hPre
      exact absurd (List.eq_nil_of_prefix_nil hPre) (by simp)
    · obtain ⟨T, hT⟩ := hPre
      rw [hW] at hT
      rw [hds] at hT
      injection hT with h1 _
      rw [List.dropWhile_cons, if_neg (by simp [h1, hd])]

/-- The two-sided whitespace trim on character lists is idempotent. -/
theorem stripChars_idem (p : Char → Bool) (l : List Char) :
    ((((((l.dropWhile p).reverse.dropWhile p).reverse).dropWhile p).reverse.dropWhile p).reverse)
      = ((l.dropWhile p).reverse.dropWhile p).reverse := by
  have hD : (l.dropWhile p).dropWhile p = l.dropWhile p := dropWhile_idem p l
  have hPre : ((l.dropWhile p).reverse.dropWhile p).reverse <+: l.dropWhile p := by
    rw [← List.reverse_suffix]
    simpa using List.dropWhile_suffix p
  have hW : (((l.dropWhile p).reverse.dropWhile p).reverse).dropWhile p
      = ((l.dropWhile p).reverse.dropWhile p).reverse :=
    dropWhile_fix_of_prefix hD hPre
  rw [hW, List.reverse_reverse, dropWhile_idem]

/-- Python's `strip` is idempotent. -/
theorem pyStrip_idem (s : String) : pyStrip (pyStrip s) = pyStrip s := by
  unfold pyStrip
  exact congrArg String.mk (stripChars_idem Char.isWhitespace s.data)

/-! ### Extraction of a written sheet (claim C1) -/

/-- A blank row changes nothing in the extractor. -/
theorem extractRows_blankRow (rs : List Row) (st : Option PendingQ) :
    extractRows (blankRow :: rs) st = extractRows rs st := by
  cases st <;> rfl

/-- Padding blank rows change nothing in the extractor. -/
theorem extractRows_replicate_blank (k : Nat) (rs : List Row) (st : Option PendingQ) :
    extractRows (List.replicate k blankRow ++ rs) st = extractRows rs st := by
  induction k with
  | zero => rfl
  | succ n ih => rw [List.replicate_succ, List.cons_append, extractRows_blankRow, ih]

/-- A row with no Question cell and a truthy Answer cell advances the
in-flight question by one choice. -/
theorem cellTruthyStrip_some {s : String} (h1 : s ≠ "") (h2 : pyStrip s ≠ "") :
    cellTruthyStrip (some s) = true := by
  simp [cellTruthyStrip, h1, h2]

theorem extractRows_ansRow (r : Row) (rs : List Row) (p : PendingQ)
    (hqc : r.questionCol = none) (hac : cellTruthyStrip r.answerCol = true) :
    extractRows (r :: rs) (some p) = extractRows rs (some (stepPending p r)) := by
  have h1 : cellTruthyStrip r.questionCol = false := by rw [hqc]; rfl
  simp only [extractRows]
  rw [h1, hac]
  simp

/-- A head row flushes any in-flight question and opens a new one. -/
theorem extractRows_headRow (q : Question) (rs : List Row) (st : Option PendingQ)
    (hqs : pyStrip q.question = q.question) (hqn : q.question ≠ "") :
    extractRows (questionHeadRow q :: rs) st
      = flushOpt st ++ extractRows rs (some (beginPending (questionHeadRow q))) := by
  cases st <;>
    · simp only [extractRows, questionHeadRow, cellTruthyStrip, flushOpt]
      simp [hqs, hqn]

/-- `getD` with default `""` in the padding region of the answer list. -/
theorem getD_replicate_empty : ∀ (n i : Nat), (List.replicate n ("" : String)).getD i "" = ""
  | 0, _ => rfl
  | n + 1, 0 => rfl
  | n + 1, i + 1 => by
    rw [List.replicate_succ]
    exact getD_replicate_empty n i

/-- `take (j+1)` appends element `j`. -/
theorem take_succ_getD {l : List String} {j : Nat} (h : j < l.length) :
    l.take (j + 1) = l.take j ++ [l.getD j ""] := by
  rw [List.take_succ]
  congr 1
  rw [List.getElem?_eq_getElem h]
  simp [List.getD_eq_getElem?_getD, List.getElem?_eq_getElem h]

/-- The extractor's walk over the writer's continuation rows for indices
`j, j+1, …`: non-blank answers accumulate (stripped) into the pending
choices, the Correct marker lands exactly once at index `correct - 1`,
blank rows (padding region) change nothing. -/
theorem extractRows_contRows (q : Question) (ne : List String)
    (hsplit : q.answers = ne ++ List.replicate (q.answers.length - ne.length) "")
    (hstrip : ∀ a ∈ ne, pyStrip a ≠ "")
    (hc1 : 1 ≤ q.correct) (hcne : q.correct ≤ ne.length) :
    ∀ (n j : Nat), 1 ≤ j → j + n = q.answers.length →
      ∀ rs, extractRows ((List.range' j n).map
            (fun idx => if q.answers.getD idx "" ≠ "" then answerContRow q idx else blankRow)
          ++ rs) (some (pendingAt q ne j))
        = extractRows rs (some (pendingAt q ne q.answers.length))
  | 0, j, _, hsum => by
    intro rs
    have : j = q.answers.length := by omega
    subst this
    rfl
  | n + 1, j, hj, hsum => by
    intro rs
    have hlen : ne.length ≤ q.answers.length := by
      have := congrArg List.length hsplit
      simp only [List.length_append, List.length_replicate] at this
      omega
    rw [List.range'_succ, List.map_cons, List.cons_append]
    by_cases hjne : j < ne.length
    · have hgetD : q.answers.getD j "" = ne.getD j "" := by
        rw [hsplit]
        exact List.getD_append ne _ "" j hjne
      have hgetDj : ne.getD j "" = ne.get ⟨j, hjne⟩ := by
        rw [List.getD_eq_getElem?_getD, List.getElem?_eq_getElem hjne]
        rfl
      have hmem : ne.getD j "" ∈ ne := by
        rw [hgetDj]
        exact List.get_mem ne j hjne
      have hsne : pyStrip (ne.getD j "") ≠ "" := hstrip _ hmem
      have hane : ne.getD j "" ≠ "" := by
        intro hcontra
        rw [hcontra] at hsne
        exact hsne rfl
      rw [if_pos (by rw [hgetD]; exact hane)]
      rw [extractRows_ansRow (answerContRow q j) _ _ rfl
        (by
          show cellTruthyStrip (some (q.answers.getD j "")) = true
          rw [hgetD]
          exact cellTruthyStrip_some hane hsne)]
      have hch : (pendingAt q ne j).choices
            ++ [pyStrip ((answerContRow q j).answerCol.getD "")]
          = List.map pyStrip (List.take (j + 1) ne) := by
        show List.map pyStrip (List.take j ne) ++ [pyStrip (q.answers.getD j "")]
          = List.map pyStrip (List.take (j + 1) ne)
        rw [hgetD, take_succ_getD hjne, List.map_append]
        rfl
      have hlch : (pendingAt q ne j).choices.length = j := by
        show (List.map pyStrip (List.take j ne)).length = j
        simp [List.length_take]
        omega
      have hstep : stepPending (pendingAt q ne j) (answerContRow q j) = pendingAt q ne (j + 1) := by
        by_cases hcj : q.correct = j + 1
        · have hmarked : correctMarked (answerContRow q j).correctCol = true := by
            show correctMarked (if q.correct = j + 1 then some "1" else none) = true
            rw [if_pos hcj]
            rfl
          have hidx : (pendingAt q ne j).indices ++ [((pendingAt q ne j).choices.length : Int)]
              = (pendingAt q ne (j + 1)).indices := by
            show (if q.correct ≤ j then [(q.correct : Int) - 1] else []) ++ _
              = (if q.correct ≤ j + 1 then [(q.correct : Int) - 1] else [])
            rw [if_neg (by omega), if_pos (by omega), hlch]
            simp
            omega
          unfold stepPending
          rw [hmarked, if_pos rfl, hidx, hch]
          rfl
        · have hmarked : correctMarked (answerContRow q j).correctCol = false := by
            show correctMarked (if q.correct = j + 1 then some "1" else none) = false
            rw [if_neg hcj]
            rfl
          have hidx : (pendingAt q ne j).indices = (pendingAt q ne (j + 1)).indices := by
            show (if q.correct ≤ j then [(q.correct : Int) - 1] else [])
              = (if q.correct ≤ j + 1 then [(q.correct : Int) - 1] else [])
            by_cases hle : q.correct ≤ j
            · rw [if_pos hle, if_pos (by omega)]
            · rw [if_neg hle, if_neg (by omega)]
          unfold stepPending
          rw [hmarked, if_neg (by simp), hidx, hch]
          rfl
      rw [hstep]
      exact extractRows_contRows q ne hsplit hstrip hc1 hcne n (j + 1) (by omega) (by omega) rs
    · have hgetD : q.answers.getD j "" = "" := by
        rw [hsplit, List.getD_append_right ne _ "" j (by omega)]
        exact getD_replicate_empty _ _
      rw [if_neg (by rw [hgetD]; simp)]
      rw [extractRows_blankRow]
      have hpend : pendingAt q ne j = pendingAt q ne (j + 1) := by
        unfold pendingAt
        have h1 : ne.take j = ne.take (j + 1) := by
          rw [List.take_of_length_le (by omega), List.take_of_length_le (by omega)]
        have h2a : q.correct ≤ j := by omega
        have h2b : q.correct ≤ j + 1 := by omega
        rw [h1, if_pos h2a, if_pos h2b]
      rw [hpend]
      exact extractRows_contRows q ne hsplit hstrip hc1 hcne n (j + 1) (by omega) (by omega) rs

/-- Opening a written head row yields exactly the state after answer 0. -/
theorem beginPending_headRow (q : Question) (ne : List String)
    (hsplit : q.answers = ne ++ List.replicate (q.answers.length - ne.length) "")
    (hne : ne ≠ []) (hstrip : ∀ a ∈ ne, pyStrip a ≠ "")
    (hsec : pyStrip q.section_id = q.section_id)
    (hq : pyStrip q.question = q.question)
    (hc1 : 1 ≤ q.correct) :
    beginPending (questionHeadRow q) = pendingAt q ne 1 := by
  obtain ⟨h0, tl, rfl⟩ := List.exists_cons_of_ne_nil hne
  have hhead : q.answers.headD "" = h0 := by rw [hsplit]; rfl
  have hheadq : q.answers.head? = some h0 := by rw [hsplit]; rfl
  have hs0 : pyStrip h0 ≠ "" := hstrip h0 (List.mem_cons_self h0 tl)
  have hn0 : h0 ≠ "" := fun hc => hs0 (by rw [hc]; rfl)
  have htruthy : cellTruthyStrip (questionHeadRow q).answerCol = true := by
    show cellTruthyStrip (some (q.answers.headD "")) = true
    rw [hhead]
    exact cellTruthyStrip_some hn0 hs0
  simp only [beginPending, questionHeadRow] at htruthy ⊢
  rw [htruthy]
  simp only [if_true, Option.getD_some]
  have hsrc : (if q.section_id ≠ "" then pyStrip q.section_id else "") = q.section_id := by
    by_cases hs : q.section_id = ""
    · rw [if_neg (by simp [hs]), hs]
    · rw [if_pos hs, hsec]
  have hch : [pyStrip (q.answers.headD "")] = ((h0 :: tl).take 1).map pyStrip := by
    rw [hhead]
    rfl
  by_cases hcor : q.correct = 1
  · have hmk : correctMarked (if q.correct = 1 then some "1" else none) = true := by
      rw [if_pos hcor]
      rfl
    unfold pendingAt
    have hz : ((q.correct : Int) - 1) = 0 := by omega
    simp [hmk, hsrc, hq, hch, hz, hheadq, (by omega : q.correct ≤ 1)]
  · have hmk : correctMarked (if q.correct = 1 then some "1" else none) = false := by
      rw [if_neg hcor]
      rfl
    unfold pendingAt
    simp [hmk, hsrc, hq, hch, hheadq, (by omega : ¬ q.correct ≤ 1), (by omega : 1 < q.correct)]

/-- Processing all the rows the writer emits for one well-formed question:
any in-flight question is flushed and the state afterwards holds exactly the
re-extracted form of `q`. -/
theorem extractRows_question (q : Question) (hwf : wfQuestion q) (rest : List Row)
    (st : Option PendingQ) :
    extractRows (questionRows q ++ rest) st
      = flushOpt st ++ extractRows rest
          (some (pendingAt q (q.answers.takeWhile (fun a => a ≠ "")) q.answers.length)) := by
  obtain ⟨hsplit, hne, hstrip, hq, hqn, hsec, hc1, hcne, h26⟩ := hwf
  simp only [questionRows]
  rw [List.cons_append]
  rw [extractRows_headRow q _ st hq hqn]
  rw [beginPending_headRow q _ hsplit hne hstrip hsec hq hc1]
  congr 1
  have hlen1 : 1 ≤ q.answers.length := by
    rcases List.exists_cons_of_ne_nil hne with ⟨h0, tl, he⟩
    rw [hsplit, he]
    simp
  rw [List.append_assoc, List.append_assoc]
  rw [extractRows_contRows q _ hsplit hstrip hc1 hcne (q.answers.length - 1) 1 le_rfl
    (by omega)]
  rw [← apply_ite (fun n => List.replicate n blankRow)]
  rw [extractRows_replicate_blank, List.singleton_append, extractRows_blankRow]

/-- `finishPending` at the end state is the re-extracted record. -/
theorem finishPending_pendingAt (q : Question) (hwf : wfQuestion q) :
    finishPending (pendingAt q (q.answers.takeWhile (fun a => a ≠ "")) q.answers.length)
      = reextractedRecord q := by
  obtain ⟨hsplit, hne, hstrip, hq, hqn, hsec, hc1, hcne, h26⟩ := hwf
  have hlen : (q.answers.takeWhile (fun a => a ≠ "")).length ≤ q.answers.length := by
    have := congrArg List.length hsplit
    simp only [List.length_append, List.length_replicate] at this
    omega
  unfold finishPending pendingAt reextractedRecord
  rw [List.take_of_length_le hlen, if_pos (by omega)]

/-- Extracting the concatenated per-question rows of a well-formed question
list yields the re-extracted record of each question, in order. -/
theorem extractRows_questions (qs : List Question) (h : ∀ q ∈ qs, wfQuestion q) :
    ∀ st, extractRows (qs.flatMap questionRows) st = flushOpt st ++ qs.map reextractedRecord := by
  induction qs with
  | nil =>
    intro st
    cases st <;> rfl
  | cons q qs ih =>
    intro st
    rw [List.flatMap_cons, extractRows_question q (h q (List.mem_cons_self q qs)) _ st,
      ih (fun q' hq' => h q' (List.mem_cons_of_mem _ hq'))]
    rw [show flushOpt (some (pendingAt q (q.answers.takeWhile (fun a => a ≠ ""))
        q.answers.length)) = [reextractedRecord q] from
      congrArg (fun r => [r]) (finishPending_pendingAt q (h q (List.mem_cons_self q qs)))]
    simp

/-- Re-extracting the written Questions sheet of a well-formed question list
recovers exactly the re-extracted record of each question, in order. -/
theorem extract_create_xlsx (qs : List Question) (h : ∀ q ∈ qs, wfQuestion q)
    (ds : DebugStats) :
    extract_xlsx_content (create_xlsx_output qs ds) = qs.map reextractedRecord := by
  unfold extract_xlsx_content create_xlsx_output
  rw [List.drop_one, List.tail_cons]
  rw [extractRows_questions qs h none]
  rfl

/-! ### Hash transport along pointwise-related record lists (claims C1, C4) -/

/-- `orderedInsert` preserves a pointwise relation that is congruent for the
sort order. -/
theorem forall₂_orderedInsert {R : QRecord → QRecord → Prop}
    (hR : ∀ a a' b b', R a a' → R b b' → (recLe a b ↔ recLe a' b'))
    {a b : QRecord} (hab : R a b) :
    ∀ {l₁ l₂ : List QRecord}, List.Forall₂ R l₁ l₂ →
      List.Forall₂ R (List.orderedInsert recLe a l₁) (List.orderedInsert recLe b l₂)
  | _, _, List.Forall₂.nil => List.Forall₂.cons hab List.Forall₂.nil
  | _, _, @List.Forall₂.cons _ _ _ x y l₁ l₂ hxy htail => by
    unfold List.orderedInsert
    by_cases hle : recLe a x
    · rw [if_pos hle, if_pos ((hR _ _ _ _ hab hxy).mp hle)]
      exact List.Forall₂.cons hab (List.Forall₂.cons hxy htail)
    · rw [if_neg hle, if_neg (fun hc => hle ((hR _ _ _ _ hab hxy).mpr hc))]
      exact List.Forall₂.cons hxy (forall₂_orderedInsert hR hab htail)

/-- The stable record sort preserves a pointwise relation that is congruent
for the sort order: both lists are rearranged identically. -/
theorem forall₂_sortRecords {R : QRecord → QRecord → Prop}
    (hR : ∀ a a' b b', R a a' → R b b' → (recLe a b ↔ recLe a' b')) :
    ∀ {l₁ l₂ : List QRecord}, List.Forall₂ R l₁ l₂ →
      List.Forall₂ R (sortRecords l₁) (sortRecords l₂)
  | _, _, List.Forall₂.nil => List.Forall₂.nil
  | _, _, @List.Forall₂.cons _ _ _ x y l₁ l₂ hxy htail =>
    forall₂_orderedInsert hR hxy (forall₂_sortRecords hR htail)

/-- Pointwise equal images give equal maps. -/
theorem map_eq_of_forall₂ {α : Type} {f : α → QRecord} {g : α → QRecord} :
    ∀ {l₁ l₂ : List α}, List.Forall₂ (fun x y => f x = g y) l₁ l₂ →
      l₁.map f = l₂.map g
  | _, _, List.Forall₂.nil => rfl
  | _, _, @List.Forall₂.cons _ _ _ x y l₁ l₂ hxy htail => by
    rw [List.map_cons, List.map_cons, hxy, map_eq_of_forall₂ htail]

/-- Hash transport: two record lists that are pointwise equal on the sort
key and on their normalized forms have the same content hash. -/
theorem hash_eq_of_forall₂ {l₁ l₂ : List QRecord}
    (h : List.Forall₂
      (fun x y => x.question = y.question ∧ normalizeRecord x = normalizeRecord y) l₁ l₂) :
    generate_content_hash l₁ = generate_content_hash l₂ := by
  unfold generate_content_hash
  have hR : ∀ a a' b b' : QRecord,
      (a.question = a'.question ∧ normalizeRecord a = normalizeRecord a') →
      (b.question = b'.question ∧ normalizeRecord b = normalizeRecord b') →
      (recLe a b ↔ recLe a' b') := by
    intro a a' b b' ha hb
    unfold recLe pyStrLe
    rw [ha.1, hb.1]
  
  have hsorted := forall₂_sortRecords hR h
  have : List.Forall₂ (fun x y => normalizeRecord x = normalizeRecord y)
      (sortRecords l₁) (sortRecords l₂) := hsorted.imp (fun a b hab => hab.2)
  rw [map_eq_of_forall₂ this]

/-- The letter of a single in-range index. -/
theorem convert_single {x : Int} (h0 : 0 ≤ x) (h26 : x < 26) :
    convert_indices_to_letter [x] = chrS (Char.ofNat (65 + x).toNat) := by
  unfold convert_indices_to_letter
  rw [if_neg (by simp)]
  simp [List.insertionSort, List.orderedInsert, List.filterMap_cons, h0, h26]

/-- The written record and the re-extracted record of a well-formed question
agree on the sort key and normalize identically. -/
theorem written_reextracted_related (q : Question) (hwf : wfQuestion q) :
    (writtenRecord q).question = (reextractedRecord q).question ∧
      normalizeRecord (writtenRecord q) = normalizeRecord (reextractedRecord q) := by
  obtain ⟨hsplit, hne, hstrip, hq, hqn, hsec, hc1, hcne, h26⟩ := hwf
  refine ⟨rfl, ?_⟩
  unfold normalizeRecord writtenRecord reextractedRecord
  have hch : ((q.answers.filter (fun c => pyStrip c ≠ "")).map (fun c => pyLower (pyStrip c)))
      = (((q.answers.takeWhile (fun a => a ≠ "")).map pyStrip).filter
          (fun c => pyStrip c ≠ "")).map (fun c => pyLower (pyStrip c)) := by
    have h1 : q.answers.filter (fun c => pyStrip c ≠ "")
        = q.answers.takeWhile (fun a => a ≠ "") := by
      conv_lhs => rw [hsplit]
      rw [List.filter_append]
      have h1a : (q.answers.takeWhile (fun a => a ≠ "")).filter (fun c => pyStrip c ≠ "")
          = q.answers.takeWhile (fun a => a ≠ "") :=
        List.filter_eq_self.mpr (fun a ha => by simpa using hstrip a ha)
      have h1b : (List.replicate (q.answers.length
            - (q.answers.takeWhile (fun a => a ≠ "")).length) ("" : String)).filter
          (fun c => pyStrip c ≠ "") = [] := by
        apply List.filter_eq_nil_iff.mpr
        intro a ha
        rw [List.eq_of_mem_replicate ha]
        simp [pyStrip_empty]
      rw [h1a, h1b, List.append_nil]
    have h2 : ((q.answers.takeWhile (fun a => a ≠ "")).map pyStrip).filter
        (fun c => pyStrip c ≠ "") = (q.answers.takeWhile (fun a => a ≠ "")).map pyStrip := by
      apply List.filter_eq_self.mpr
      intro a ha
      obtain ⟨b, hb, rfl⟩ := List.mem_map.mp ha
      rw [pyStrip_idem]
      simpa using hstrip b hb
    rw [h1, h2, List.map_map]
    apply List.map_congr_left
    intro a ha
    show pyLower (pyStrip a) = pyLower (pyStrip (pyStrip a))
    rw [pyStrip_idem]
  have hca : chrS (Char.ofNat (64 + q.correct))
      = convert_indices_to_letter [(q.correct : Int) - 1] := by
    rw [convert_single (by omega) (by omega)]
    congr 2
    omega
  rw [hch, hca]

/-- Pointwise relation between mapped lists from a pointwise property. -/
theorem forall₂_map_map {α : Type} {R : QRecord → QRecord → Prop} {f g : α → QRecord} :
    ∀ {l : List α}, (∀ a ∈ l, R (f a) (g a)) → List.Forall₂ R (l.map f) (l.map g)
  | [], _ => List.Forall₂.nil
  | a :: t, h =>
    List.Forall₂.cons (h a (List.mem_cons_self a t))
      (forall₂_map_map (fun b hb => h b (List.mem_cons_of_mem a hb)))

/-- C1: for every well-formed question set (the parser's invariants:
non-blank stripped question text, a non-empty block of non-blank choices
followed only by `""` padding, stripped section id, and a correct index
pointing at a real choice within letter range), writing the set with
`create_xlsx_output` and immediately re-extracting the Questions sheet with
`extract_xlsx_content` yields a record set with the same normalized content
hash as the written set (in its record form `writtenRecord`), for any debug
statistics. -/
theorem C1_write_extract_hash_roundtrip :
    ∀ (qs : List Question) (ds : DebugStats), (∀ q ∈ qs, wfQuestion q) →
      generate_content_hash (qs.map writtenRecord)
        = generate_content_hash (extract_xlsx_content (create_xlsx_output qs ds)) := by
  intro qs ds h
  rw [extract_create_xlsx qs h ds]
  exact hash_eq_of_forall₂ (forall₂_map_map (fun q hq => written_reextracted_related q (h q hq)))

/-- C1 witness: the round-trip theorem applied to a concrete two-question
set (one padded MC question with a leading-space choice, one TF question). -/
theorem C1_witness :
    (∀ q ∈ witnessQs, wfQuestion q) ∧
      generate_content_hash (witnessQs.map writtenRecord)
        = generate_content_hash (extract_xlsx_content (create_xlsx_output witnessQs witnessStats)) :=
  ⟨by decide, C1_write_extract_hash_roundtrip witnessQs witnessStats (by decide)⟩

/-! ### Round-trip of the canonical serialization (claim C4) -/

/-- The decoder inverts the hex-digit encoder. -/
theorem hexVal_hexDigit : ∀ n, n < 16 → hexVal (hexDigit n) = some n := by
  decide

/-- A character's code point is never in the surrogate range and is below
`0x110000`. -/
theorem char_valid_nat (c : Char) :
    c.toNat < 0xd800 ∨ (0xdfff < c.toNat ∧ c.toNat < 0x110000) :=
  c.valid

/-- Decoding a 4-digit `\uXXXX` escape of a non-surrogate value. -/
theorem decodeEscTok_u (n : Nat) (hn : n < 0x10000)
    (hns : ¬ (0xd800 ≤ n ∧ n < 0xdc00)) (rest3 : List Char) :
    decodeEscTok ('u' :: hexDigit (n / 4096 % 16) :: hexDigit (n / 256 % 16)
        :: hexDigit (n / 16 % 16) :: hexDigit (n % 16) :: rest3)
      = some (Char.ofNat n, rest3) := by
  have e1 := hexVal_hexDigit (n / 4096 % 16) (Nat.mod_lt _ (by norm_num))
  have e2 := hexVal_hexDigit (n / 256 % 16) (Nat.mod_lt _ (by norm_num))
  have e3 := hexVal_hexDigit (n / 16 % 16) (Nat.mod_lt _ (by norm_num))
  have e4 := hexVal_hexDigit (n % 16) (Nat.mod_lt _ (by norm_num))
  have hv : ((n / 4096 % 16 * 16 + n / 256 % 16) * 16 + n / 16 % 16) * 16 + n % 16 = n := by
    omega
  simp only [decodeEscTok, e1, e2, e3, e4]
  rw [hv, if_neg hns]

/-- Decoding a surrogate-pair escape back to the astral code point. -/
theorem decodeEscTok_surr (hi lo : Nat) (hhi : hi < 0x10000) (hlo : lo < 0x10000)
    (hs1 : 0xd800 ≤ hi) (hs2 : hi < 0xdc00) (hw1 : 0xdc00 ≤ lo) (hw2 : lo < 0xe000)
    (rest4 : List Char) :
    decodeEscTok ('u' :: hexDigit (hi / 4096 % 16) :: hexDigit (hi / 256 % 16)
        :: hexDigit (hi / 16 % 16) :: hexDigit (hi % 16)
        :: '\\' :: 'u' :: hexDigit (lo / 4096 % 16) :: hexDigit (lo / 256 % 16)
        :: hexDigit (lo / 16 % 16) :: hexDigit (lo % 16) :: rest4)
      = some (Char.ofNat (0x10000 + (hi - 0xd800) * 0x400 + (lo - 0xdc00)), rest4) := by
  have e1 := hexVal_hexDigit (hi / 4096 % 16) (Nat.mod_lt _ (by norm_num))
  have e2 := hexVal_hexDigit (hi / 256 % 16) (Nat.mod_lt _ (by norm_num))
  have e3 := hexVal_hexDigit (hi / 16 % 16) (Nat.mod_lt _ (by norm_num))
  have e4 := hexVal_hexDigit (hi % 16) (Nat.mod_lt _ (by norm_num))
  have f1 := hexVal_hexDigit (lo / 4096 % 16) (Nat.mod_lt _ (by norm_num))
  have f2 := hexVal_hexDigit (lo / 256 % 16) (Nat.mod_lt _ (by norm_num))
  have f3 := hexVal_hexDigit (lo / 16 % 16) (Nat.mod_lt _ (by norm_num))
  have f4 := hexVal_hexDigit (lo % 16) (Nat.mod_lt _ (by norm_num))
  have hvhi : ((hi / 4096 % 16 * 16 + hi / 256 % 16) * 16 + hi / 16 % 16) * 16 + hi % 16
      = hi := by omega
  have hvlo : ((lo / 4096 % 16 * 16 + lo / 256 % 16) * 16 + lo / 16 % 16) * 16 + lo % 16
      = lo := by omega
  simp only [decodeEscTok, e1, e2, e3, e4, f1, f2, f3, f4]
  rw [hvhi, hvlo, if_pos ⟨hs1, hs2⟩, if_pos ⟨trivial, trivial⟩, if_pos ⟨hw1, hw2⟩]

/-- One-step unfolding of the string-body decoder on a cons cell. -/
theorem decodeStr_step (fuel : Nat) (c : Char) (rest : List Char) :
    decodeStr fuel (c :: rest)
      = if c = '"' then some ([], rest)
        else
          match fuel with
          | 0 => none
          | fuel2 + 1 =>
            if c = '\\' then
              match decodeEscTok rest with
              | some (d, rest2) => consDecoded d (decodeStr fuel2 rest2)
              | none => none
            else consDecoded c (decodeStr fuel2 rest) := by
  cases fuel <;> rfl

/-- One-step unfolding at successor fuel. -/
theorem decodeStr_step_succ (f : Nat) (c : Char) (rest : List Char) :
    decodeStr (f + 1) (c :: rest)
      = if c = '"' then some ([], rest)
        else if c = '\\' then
          match decodeEscTok rest with
          | some (d, rest2) => consDecoded d (decodeStr f rest2)
          | none => none
        else consDecoded c (decodeStr f rest) := by
  rfl

/-- Escaping any character yields at least one character. -/
theorem escChar_length_pos (c : Char) : 1 ≤ (escChar c).length := by
  unfold escChar uEsc hex4
  repeat' split
  all_goals simp

/-- Escaping a list yields at least as many characters. -/
theorem escChars_length_ge : ∀ l : List Char, l.length ≤ (escChars l).length
  | [] => le_refl 0
  | c :: t => by
    have h1 := escChar_length_pos c
    have h2 := escChars_length_ge t
    simp only [escChars, List.flatMap_cons, List.length_append, List.length_cons]
    have : escChars t = t.flatMap escChar := rfl
    rw [← this]
    omega

/-- The string-body decoder inverts the `json.dumps` escaper: with enough
fuel, decoding the escaped characters followed by the closing quote returns
the original characters and the input after the quote. -/
theorem decodeStr_escChars : ∀ (l : List Char) (fuel : Nat) (rest : List Char),
    l.length ≤ fuel → decodeStr fuel (escChars l ++ '"' :: rest) = some (l, rest)
  | [], fuel, rest, _ => by
    show decodeStr fuel ('"' :: rest) = some ([], rest)
    rw [decodeStr_step, if_pos rfl]
  | c :: t, fuel, rest, hfuel => by
    obtain ⟨f, rfl⟩ : ∃ f, fuel = f + 1 := by
      cases fuel with
      | zero => exact absurd hfuel (by simp)
      | succ f => exact ⟨f, rfl⟩
    have ih := decodeStr_escChars t f rest
      (by simp only [List.length_cons] at hfuel; omega)
    show decodeStr (f + 1) ((escChar c ++ escChars t) ++ '"' :: rest) = some (c :: t, rest)
    rw [List.append_assoc]
    by_cases h1 : c = '"'
    · subst h1
      have hesc : decodeEscTok ('"' :: (escChars t ++ '"' :: rest))
          = some ('"', escChars t ++ '"' :: rest) := rfl
      rw [show escChar '"' = ['\\', '"'] from rfl]
      rw [List.cons_append, List.singleton_append, decodeStr_step_succ,
        if_neg (by decide), if_pos rfl, hesc]
      show consDecoded '"' (decodeStr f (escChars t ++ '"' :: rest)) = some ('"' :: t, rest)
      rw [ih]
      rfl
    by_cases h2 : c = '\\'
    · subst h2
      have hesc : decodeEscTok ('\\' :: (escChars t ++ '"' :: rest))
          = some ('\\', escChars t ++ '"' :: rest) := rfl
      rw [show escChar '\\' = ['\\', '\\'] from rfl]
      rw [List.cons_append, List.singleton_append, decodeStr_step_succ,
        if_neg (by decide), if_pos rfl, hesc]
      show consDecoded '\\' (decodeStr f (escChars t ++ '"' :: rest)) = some ('\\' :: t, rest)
      rw [ih]
      rfl
    by_cases h3 : c = '\x08'
    · subst h3
      have hesc : decodeEscTok ('b' :: (escChars t ++ '"' :: rest))
          = some ('\x08', escChars t ++ '"' :: rest) := rfl
      rw [show escChar '\x08' = ['\\', 'b'] from rfl]
      rw [List.cons_append, List.singleton_append, decodeStr_step_succ,
        if_neg (by decide), if_pos rfl, hesc]
      show consDecoded '\x08' (decodeStr f (escChars t ++ '"' :: rest)) = some ('\x08' :: t, rest)
      rw [ih]
      rfl
    by_cases h4 : c = '\x0c'
    · subst h4
      have hesc : decodeEscTok ('f' :: (escChars t ++ '"' :: rest))
          = some ('\x0c', escChars t ++ '"' :: rest) := rfl
      rw [show escChar '\x0c' = ['\\', 'f'] from rfl]
      rw [List.cons_append, List.singleton_append, decodeStr_step_succ,
        if_neg (by decide), if_pos rfl, hesc]
      show consDecoded '\x0c' (decodeStr f (escChars t ++ '"' :: rest)) = some ('\x0c' :: t, rest)
      rw [ih]
      rfl
    by_cases h5 : c = '\n'
    · subst h5
      have hesc : decodeEscTok ('n' :: (escChars t ++ '"' :: rest))
          = some ('\n', escChars t ++ '"' :: rest) := rfl
      rw [show escChar '\n' = ['\\', 'n'] from rfl]
      rw [List.cons_append, List.singleton_append, decodeStr_step_succ,
        if_neg (by decide), if_pos rfl, hesc]
      show consDecoded '\n' (decodeStr f (escChars t ++ '"' :: rest)) = some ('\n' :: t, rest)
      rw [ih]
      rfl
    by_cases h6 : c = '\r'
    · subst h6
      have hesc : decodeEscTok ('r' :: (escChars t ++ '"' :: rest))
          = some ('\r', escChars t ++ '"' :: rest) := rfl
      rw [show escChar '\r' = ['\\', 'r'] from rfl]
      rw [List.cons_append, List.singleton_append, decodeStr_step_succ,
        if_neg (by decide), if_pos rfl, hesc]
      show consDecoded '\r' (decodeStr f (escChars t ++ '"' :: rest)) = some ('\r' :: t, rest)
      rw [ih]
      rfl
    by_cases h7 : c = '\t'
    · subst h7
      have hesc : decodeEscTok ('t' :: (escChars t ++ '"' :: rest))
          = some ('\t', escChars t ++ '"' :: rest) := rfl
      rw [show escChar '\t' = ['\\', 't'] from rfl]
      rw [List.cons_append, List.singleton_append, decodeStr_step_succ,
        if_neg (by decide), if_pos rfl, hesc]
      show consDecoded '\t' (decodeStr f (escChars t ++ '"' :: rest)) = some ('\t' :: t, rest)
      rw [ih]
      rfl
    by_cases h8 : 0x20 ≤ c.toNat ∧ c.toNat ≤ 0x7e
    · rw [show escChar c = [c] from by
        simp only [escChar, if_neg h1, if_neg h2, if_neg h3, if_neg h4, if_neg h5, if_neg h6,
          if_neg h7, if_pos h8]]
      rw [List.singleton_append, decodeStr_step_succ, if_neg h1, if_neg h2, ih]
      rfl
    by_cases h9 : c.toNat ≤ 0xffff
    · rw [show escChar c = uEsc c.toNat from by
        simp only [escChar, if_neg h1, if_neg h2, if_neg h3, if_neg h4, if_neg h5, if_neg h6,
          if_neg h7, if_neg h8, if_pos h9]]
      have hns : ¬ (0xd800 ≤ c.toNat ∧ c.toNat < 0xdc00) := by
        rcases char_valid_nat c with h | h <;> omega
      simp only [uEsc, hex4, List.cons_append, List.nil_append, List.append_assoc]
      rw [decodeStr_step_succ, if_neg (by decide), if_pos rfl,
        decodeEscTok_u c.toNat (by omega) hns _]
      show consDecoded (Char.ofNat c.toNat) (decodeStr f (escChars t ++ '"' :: rest))
        = some (c :: t, rest)
      rw [ih, Char.ofNat_toNat]
      rfl
    · have hn : c.toNat < 0x110000 := by
        rcases char_valid_nat c with h | h <;> omega
      have h10 : 0x10000 ≤ c.toNat := by omega
      have hmod : (c.toNat - 0x10000) % 0x400 < 0x400 :=
        Nat.mod_lt _ (by norm_num)
      have hdiv : (c.toNat - 0x10000) / 0x400 < 0x400 := by omega
      rw [show escChar c = uEsc (0xd800 + (c.toNat - 0x10000) / 0x400)
            ++ uEsc (0xdc00 + (c.toNat - 0x10000) % 0x400) from by
        simp only [escChar, if_neg h1, if_neg h2, if_neg h3, if_neg h4, if_neg h5, if_neg h6,
          if_neg h7, if_neg h8, if_neg h9]]
      have hchar : 0x10000 + (0xd800 + (c.toNat - 0x10000) / 0x400 - 0xd800) * 0x400
          + (0xdc00 + (c.toNat - 0x10000) % 0x400 - 0xdc00) = c.toNat := by
        have := Nat.div_add_mod (c.toNat - 0x10000) 0x400
        omega
      simp only [uEsc, hex4, List.cons_append, List.nil_append, List.append_assoc]
      rw [decodeStr_step_succ, if_neg (by decide), if_pos rfl,
        decodeEscTok_surr (0xd800 + (c.toNat - 0x10000) / 0x400)
          (0xdc00 + (c.toNat - 0x10000) % 0x400) (by omega) (by omega)
          (by omega) (by omega) (by omega) (by omega) _]
      show consDecoded (Char.ofNat (0x10000
            + (0xd800 + (c.toNat - 0x10000) / 0x400 - 0xd800) * 0x400
            + (0xdc00 + (c.toNat - 0x10000) % 0x400 - 0xdc00)))
          (decodeStr f (escChars t ++ '"' :: rest))
        = some (c :: t, rest)
      rw [hchar, ih, Char.ofNat_toNat]
      rfl

/-- Decoding a serialized string token (`json.dumps` of one string) returns
the string and the rest of the input. -/
theorem decodeStrTok_strJson (s : String) (rest : List Char) :
    decodeStrTok ((strJson s).data ++ rest) = some (s, rest) := by
  have hdata : (strJson s).data ++ rest = '"' :: (escChars s.data ++ ('"' :: rest)) := by
    show ("\"" ++ String.mk (escChars s.data) ++ "\"").data ++ rest = _
    rw [String.data_append, String.data_append]
    simp
  rw [hdata]
  show (match decodeStr (escChars s.data ++ ('"' :: rest)).length
      (escChars s.data ++ ('"' :: rest)) with
    | some (cs, r) => some (String.mk cs, r)
    | none => none) = some (s, rest)
  rw [decodeStr_escChars s.data _ rest (by
    have := escChars_length_ge s.data
    simp only [List.length_append, List.length_cons]
    omega)]

/-- The characters of a comma-join: the head item followed by
comma-prefixed tail items. -/
theorem joinSep_comma_data : ∀ (x : String) (xs : List String),
    (joinSep "," (x :: xs)).data = x.data ++ xs.flatMap (fun y => ',' :: y.data)
  | _, [] => by simp [joinSep]
  | x, y :: ys => by
    show (x ++ "," ++ joinSep "," (y :: ys)).data = _
    rw [String.data_append, String.data_append, joinSep_comma_data y ys]
    simp

/-- Each comma-prefixed chunk contributes at least one character. -/
theorem length_le_flatMap_cons {A : Type} (g : A → List Char) :
    ∀ xs : List A, xs.length ≤ (xs.flatMap (fun y => ',' :: g y)).length
  | [] => le_refl 0
  | x :: xs => by
    have := length_le_flatMap_cons g xs
    simp only [List.flatMap_cons, List.length_cons, List.length_append]
    omega

/-- A closing bracket ends the string-array tail decoder. -/
theorem decodeStrMore_close (fuel : Nat) (acc : List String) (rest : List Char) :
    decodeStrMore fuel acc (']' :: rest) = some (acc.reverse, rest) := by
  cases fuel <;> rfl

/-- A comma continues the string-array tail decoder. -/
theorem decodeStrMore_comma (f : Nat) (acc : List String) (rest : List Char) :
    decodeStrMore (f + 1) acc (',' :: rest)
      = (match decodeStrTok rest with
         | some (x, r) => decodeStrMore f (x :: acc) r
         | none => none) := rfl

/-- The string-array tail decoder inverts the comma-join of serialized
strings, given fuel at least the item count. -/
theorem decodeStrMore_tail : ∀ (xs : List String) (fuel : Nat) (acc : List String)
    (rest : List Char), xs.length ≤ fuel →
    decodeStrMore fuel acc ((xs.flatMap (fun y => ',' :: (strJson y).data)) ++ (']' :: rest))
      = some (acc.reverse ++ xs, rest)
  | [], fuel, acc, rest, _ => by
    simp only [List.flatMap_nil, List.nil_append]
    rw [decodeStrMore_close]
    simp
  | y :: ys, fuel, acc, rest, hfuel => by
    match fuel, hfuel with
    | f + 1, hfuel =>
      simp only [List.flatMap_cons, List.cons_append, List.append_assoc]
      rw [decodeStrMore_comma, decodeStrTok_strJson y _]
      show decodeStrMore f (y :: acc) ((ys.flatMap (fun y => ',' :: (strJson y).data))
          ++ (']' :: rest)) = some (acc.reverse ++ y :: ys, rest)
      rw [decodeStrMore_tail ys f (y :: acc) rest (by
        simp only [List.length_cons] at hfuel; omega)]
      simp

/-- The bracket-and-quote opening of a nonempty serialized string array. -/
theorem decodeStrArr_quote (w : List Char) :
    decodeStrArr ('[' :: '"' :: w)
      = (match decodeStrTok ('"' :: w) with
         | some (x, r) => decodeStrMore r.length [x] r
         | none => none) := rfl

/-- The string-array decoder inverts `strListJson`. -/
theorem decodeStrArr_strListJson : ∀ (l : List String) (rest : List Char),
    decodeStrArr ((strListJson l).data ++ rest) = some (l, rest)
  | [], rest => by
    show decodeStrArr (("[" ++ joinSep "," ([].map strJson) ++ "]").data ++ rest)
      = some ([], rest)
    rw [show ("[" ++ joinSep "," ([].map strJson) ++ "]").data ++ rest
      = '[' :: ']' :: rest from rfl]
    rfl
  | x :: xs, rest => by
    have hdata : (strListJson (x :: xs)).data ++ rest
        = '[' :: ((strJson x).data
            ++ ((xs.flatMap (fun y => ',' :: (strJson y).data)) ++ (']' :: rest))) := by
      show ("[" ++ joinSep "," ((x :: xs).map strJson) ++ "]").data ++ rest = _
      rw [List.map_cons, String.data_append, String.data_append, joinSep_comma_data,
        List.flatMap_map]
      simp [Function.comp]
    have hstr : (strJson x).data
          ++ ((xs.flatMap (fun y => ',' :: (strJson y).data)) ++ (']' :: rest))
        = '"' :: (escChars x.data
            ++ ('"' :: ((xs.flatMap (fun y => ',' :: (strJson y).data)) ++ (']' :: rest)))) := by
      show ("\"" ++ String.mk (escChars x.data) ++ "\"").data ++ _ = _
      rw [String.data_append, String.data_append]
      simp
    rw [hdata, hstr, decodeStrArr_quote, ← hstr, decodeStrTok_strJson x _]
    show decodeStrMore ((xs.flatMap (fun y => ',' :: (strJson y).data)) ++ (']' :: rest)).length
        [x] ((xs.flatMap (fun y => ',' :: (strJson y).data)) ++ (']' :: rest))
      = some (x :: xs, rest)
    rw [decodeStrMore_tail xs _ [x] rest (by
      have := length_le_flatMap_cons (fun y => (strJson y).data) xs
      simp only [List.length_append, List.length_cons]
      omega)]
    rfl

/-- Reading an expected literal prefix off the input succeeds and returns
the rest. -/
theorem expectLit_append : ∀ (p rest : List Char), expectLit p (p ++ rest) = some rest
  | [], _ => rfl
  | c :: cs, rest => by
    show expectLit (c :: cs) (c :: (cs ++ rest)) = some rest
    rw [show expectLit (c :: cs) (c :: (cs ++ rest))
      = if c = c then expectLit cs (cs ++ rest) else none from rfl]
    rw [if_pos rfl, expectLit_append cs rest]

/-- The record decoder inverts `recordJson`. -/
theorem decodeRec_recordJson (q : QRecord) (rest : List Char) :
    decodeRec ((recordJson q).data ++ rest) = some (q, rest) := by
  have h : (recordJson q).data ++ rest
      = "\x7b\"choices\":".data ++ ((strListJson q.choices).data
        ++ (",\"correct_answer\":".data ++ ((strJson q.correct_answer).data
        ++ (",\"question\":".data ++ ((strJson q.question).data
        ++ (",\"source\":".data ++ ((strJson q.source).data
        ++ ("\x7d".data ++ rest)))))))) := by
    show ("\x7b\"choices\":" ++ strListJson q.choices
      ++ ",\"correct_answer\":" ++ strJson q.correct_answer
      ++ ",\"question\":" ++ strJson q.question
      ++ ",\"source\":" ++ strJson q.source ++ "\x7d").data ++ rest = _
    simp only [String.data_append, List.append_assoc]
  rw [h]
  unfold decodeRec
  simp only [expectLit_append, decodeStrArr_strListJson, decodeStrTok_strJson]

/-- A closing bracket ends the record-array tail decoder. -/
theorem decodeRecMore_close (fuel : Nat) (acc : List QRecord) (rest : List Char) :
    decodeRecMore fuel acc (']' :: rest) = some (acc.reverse, rest) := by
  cases fuel <;> rfl

/-- A comma continues the record-array tail decoder. -/
theorem decodeRecMore_comma (f : Nat) (acc : List QRecord) (rest : List Char) :
    decodeRecMore (f + 1) acc (',' :: rest)
      = (match decodeRec rest with
         | some (x, r) => decodeRecMore f (x :: acc) r
         | none => none) := rfl

/-- The record-array tail decoder inverts the comma-join of serialized
records, given fuel at least the item count. -/
theorem decodeRecMore_tail : ∀ (xs : List QRecord) (fuel : Nat) (acc : List QRecord)
    (rest : List Char), xs.length ≤ fuel →
    decodeRecMore fuel acc ((xs.flatMap (fun y => ',' :: (recordJson y).data)) ++ (']' :: rest))
      = some (acc.reverse ++ xs, rest)
  | [], fuel, acc, rest, _ => by
    simp only [List.flatMap_nil, List.nil_append]
    rw [decodeRecMore_close]
    simp
  | y :: ys, fuel, acc, rest, hfuel => by
    match fuel, hfuel with
    | f + 1, hfuel =>
      simp only [List.flatMap_cons, List.cons_append, List.append_assoc]
      rw [decodeRecMore_comma, decodeRec_recordJson y _]
      show decodeRecMore f (y :: acc) ((ys.flatMap (fun y => ',' :: (recordJson y).data))
          ++ (']' :: rest)) = some (acc.reverse ++ y :: ys, rest)
      rw [decodeRecMore_tail ys f (y :: acc) rest (by
        simp only [List.length_cons] at hfuel; omega)]
      simp

/-- The content decoder inverts the canonical serialization. -/
theorem decodeContent_contentJson : ∀ l : List QRecord,
    decodeContent (contentJson l) = some (l, [])
  | [] => rfl
  | x :: xs => by
    have hdata : (contentJson (x :: xs)).data
        = '[' :: ((recordJson x).data
            ++ ((xs.flatMap (fun y => ',' :: (recordJson y).data)) ++ (']' :: []))) := by
      show ("[" ++ joinSep "," ((x :: xs).map recordJson) ++ "]").data = _
      rw [List.map_cons, String.data_append, String.data_append, joinSep_comma_data,
        List.flatMap_map]
      simp [Function.comp]
    unfold decodeContent
    rw [hdata]
    show (match decodeRec ((recordJson x).data
        ++ ((xs.flatMap (fun y => ',' :: (recordJson y).data)) ++ (']' :: []))) with
      | some (z, r) => decodeRecMore r.length [z] r
      | none => none) = some (x :: xs, [])
    rw [decodeRec_recordJson x _]
    show decodeRecMore ((xs.flatMap (fun y => ',' :: (recordJson y).data))
        ++ (']' :: [])).length [x]
        ((xs.flatMap (fun y => ',' :: (recordJson y).data)) ++ (']' :: []))
      = some (x :: xs, [])
    rw [decodeRecMore_tail xs _ [x] [] (by
      have := length_le_flatMap_cons (fun y => (recordJson y).data) xs
      simp only [List.length_append, List.length_cons]
      omega)]
    rfl

/-- The canonical serialization is injective: distinct record lists
serialize differently. -/
theorem contentJson_injective {l1 l2 : List QRecord}
    (h : contentJson l1 = contentJson l2) : l1 = l2 := by
  have h1 := decodeContent_contentJson l1
  rw [h, decodeContent_contentJson l2] at h1
  exact ((Prod.mk.injEq _ _ _ _).mp (Option.some.inj h1.symm)).1

/-- Appending pointwise-related lists keeps them pointwise related. -/
theorem forall₂_app {α : Type} {R : α → α → Prop} :
    ∀ {l1 l2 u1 u2 : List α}, List.Forall₂ R l1 l2 → List.Forall₂ R u1 u2 →
      List.Forall₂ R (l1 ++ u1) (l2 ++ u2)
  | _, _, _, _, List.Forall₂.nil, h2 => h2
  | _, _, _, _, List.Forall₂.cons hab ht, h2 => List.Forall₂.cons hab (forall₂_app ht h2)

/-- Two lists that are pointwise equal except at one marked pair, whose left
member occurs only on the left and normalizes differently from the right
member, have different normalized images. -/
theorem maps_ne_marked {x y : QRecord} (hxy : normalizeRecord x ≠ normalizeRecord y) :
    ∀ {L1 L2 : List QRecord},
      List.Forall₂ (fun a b => a = b ∨ (a = x ∧ b = y)) L1 L2 →
      x ∈ L1 → x ∉ L2 →
      L1.map normalizeRecord ≠ L2.map normalizeRecord
  | _, _, List.Forall₂.nil, hmem, _ => absurd hmem (List.not_mem_nil x)
  | _, _, @List.Forall₂.cons _ _ _ a b t1 t2 hab htail, hmem, hnot => by
    intro heq
    rw [List.map_cons, List.map_cons] at heq
    injection heq with h1 h2
    rcases List.mem_cons.mp hmem with hxa | hxt
    · subst hxa
      rcases hab with hab | ⟨_, hby⟩
      · exact hnot (by rw [hab]; exact List.mem_cons_self b t2)
      · subst hby
        exact hxy h1
    · exact maps_ne_marked hxy htail hxt (fun hc => hnot (List.mem_cons_of_mem b hc)) h2

/-- Membership of a choice-mismatch entry in the difference list, given the
question text is common and the dict lookups disagree on choices. -/
theorem choice_mismatch_mem (original converted : List QRecord) (t : String)
    (oq cq : QRecord)
    (ht1 : t ∈ (original.map (fun q => q.question)).dedup)
    (ht2 : t ∈ (converted.map (fun q => q.question)).dedup)
    (ho : lastWith t original = some oq) (hc : lastWith t converted = some cq)
    (hch : oq.choices ≠ cq.choices) :
    ("Choice mismatch in question: " ++ pyTake 50 t ++ "...")
      ∈ compare_question_sets original converted := by
  simp only [compare_question_sets]
  apply List.mem_append_right
  apply List.mem_flatMap.mpr
  refine ⟨t, List.mem_filter.mpr ⟨ht1, by simpa using ht2⟩, ?_⟩
  rw [ho, hc]
  show _ ∈ (if oq.choices ≠ cq.choices then
      ["Choice mismatch in question: " ++ pyTake 50 t ++ "..."] else []) ++
    (if oq.correct_answer ≠ cq.correct_answer then
      ["Correct answer mismatch in question: " ++ pyTake 50 t ++ "..."] else [])
  rw [if_pos hch]
  exact List.mem_append_left _ (List.mem_singleton.mpr rfl)

/-- The dict lookup on a list whose other members carry different question
texts returns the marked member. -/
theorem lastWith_middle (pre post : List QRecord) (z : QRecord) (t : String)
    (hz : z.question = t)
    (hpre : ∀ q ∈ pre, q.question ≠ t) (hpost : ∀ q ∈ post, q.question ≠ t) :
    lastWith t (pre ++ z :: post) = some z := by
  unfold lastWith
  rw [List.filter_append, List.filter_cons_of_pos (by simpa using hz),
    List.filter_eq_nil_iff.mpr (by intro q hq; simpa using hpre q hq),
    List.filter_eq_nil_iff.mpr (by intro q hq; simpa using hpost q hq)]
  rfl

/-- C4 (amended): for two question sets identical except that the choice
list of one question (whose text occurs once) is reordered by a non-identity
permutation, the validator reports a hash mismatch and a choice-mismatch
entry for that question, provided the reordering survives normalization
(the lowercased-stripped choice lists, blanks dropped, still differ). -/
theorem C4_reorder_detected (pre post : List QRecord) (x y : QRecord)
    (hq : y.question = x.question) (hca : y.correct_answer = x.correct_answer)
    (hsrc : y.source = x.source)
    (hperm : y.choices.Perm x.choices) (hneq : y.choices ≠ x.choices)
    (hne : (normalizeRecord y).choices ≠ (normalizeRecord x).choices)
    (hnodup : ((pre ++ x :: post).map (fun q => q.question)).Nodup) :
    (validate_conversion (pre ++ x :: post) (pre ++ y :: post)).validation_passed = false
    ∧ ("Choice mismatch in question: " ++ pyTake 50 x.question ++ "...")
      ∈ (validate_conversion (pre ++ x :: post) (pre ++ y :: post)).differences := by
  rw [List.map_append, List.map_cons] at hnodup
  have hdisj := (List.nodup_append.mp hnodup).2.2
  have hxpost := (List.nodup_cons.mp (List.nodup_append.mp hnodup).2.1).1
  have hpre : ∀ q ∈ pre, q.question ≠ x.question := by
    intro q hqm hc
    exact hdisj (List.mem_map_of_mem (fun r => r.question) hqm)
      (by rw [hc]; exact List.mem_cons_self _ _)
  have hpost : ∀ q ∈ post, q.question ≠ x.question := by
    intro q hqm hc
    exact hxpost (hc ▸ List.mem_map_of_mem (fun r => r.question) hqm)
  have hxney : x ≠ y := fun h => hneq (by rw [← h])
  have hnorm_ne : normalizeRecord x ≠ normalizeRecord y := by
    intro h
    exact hne (congrArg QRecord.choices h.symm)
  have hch : x.choices ≠ y.choices := by
    intro h
    apply hne
    show ((y.choices.filter (fun c => pyStrip c ≠ "")).map (fun c => pyLower (pyStrip c)))
      = ((x.choices.filter (fun c => pyStrip c ≠ "")).map (fun c => pyLower (pyStrip c)))
    rw [h]
  have hxin1 : x ∈ pre ++ x :: post :=
    List.mem_append_right _ (List.mem_cons_self _ _)
  have hxnotin2 : x ∉ pre ++ y :: post := by
    intro hmem
    rcases List.mem_append.mp hmem with hm | hm
    · exact hpre x hm rfl
    · rcases List.mem_cons.mp hm with hm | hm
      · exact hxney hm
      · exact hpost x hm rfl
  have hforall : List.Forall₂ (fun a b => a = b ∨ (a = x ∧ b = y))
      (pre ++ x :: post) (pre ++ y :: post) :=
    forall₂_app (List.forall₂_same.mpr (fun a _ => Or.inl rfl))
      (List.Forall₂.cons (Or.inr ⟨rfl, rfl⟩)
        (List.forall₂_same.mpr (fun a _ => Or.inl rfl)))
  have hRcong : ∀ a a' b b' : QRecord,
      (a = a' ∨ (a = x ∧ a' = y)) → (b = b' ∨ (b = x ∧ b' = y)) →
      (recLe a b ↔ recLe a' b') := by
    intro a a' b b' ha hb
    have hqa : a.question = a'.question := by
      rcases ha with rfl | ⟨rfl, rfl⟩
      · rfl
      · exact hq.symm
    have hqb : b.question = b'.question := by
      rcases hb with rfl | ⟨rfl, rfl⟩
      · rfl
      · exact hq.symm
    unfold recLe pyStrLe
    rw [hqa, hqb]
  have hsorted := forall₂_sortRecords hRcong hforall
  have hxins : x ∈ sortRecords (pre ++ x :: post) :=
    (List.perm_insertionSort recLe (pre ++ x :: post)).mem_iff.mpr hxin1
  have hxnotins : x ∉ sortRecords (pre ++ y :: post) := by
    intro hc
    exact hxnotin2 ((List.perm_insertionSort recLe (pre ++ y :: post)).mem_iff.mp hc)
  have hmapsne := maps_ne_marked hnorm_ne hsorted hxins hxnotins
  have hhashne : generate_content_hash (pre ++ x :: post)
      ≠ generate_content_hash (pre ++ y :: post) := by
    intro h
    exact hmapsne (contentJson_injective h)
  constructor
  · show (generate_content_hash (pre ++ x :: post)
      == generate_content_hash (pre ++ y :: post)) = false
    exact beq_eq_false_iff_ne.mpr hhashne
  · have hdif : (validate_conversion (pre ++ x :: post) (pre ++ y :: post)).differences
        = compare_question_sets (pre ++ x :: post) (pre ++ y :: post) := by
      show (if (generate_content_hash (pre ++ x :: post)
          == generate_content_hash (pre ++ y :: post)) = true then []
        else compare_question_sets (pre ++ x :: post) (pre ++ y :: post)) = _
      rw [if_neg (by rw [beq_iff_eq]; exact hhashne)]
    rw [hdif]
    apply choice_mismatch_mem _ _ _ x y
    · exact List.mem_dedup.mpr (List.mem_map_of_mem (fun q => q.question) hxin1)
    · apply List.mem_dedup.mpr
      rw [← hq]
      exact List.mem_map_of_mem (fun q : QRecord => q.question)
        (List.mem_append_right pre (List.mem_cons_self y post))
    · exact lastWith_middle pre post x x.question rfl hpre hpost
    · exact lastWith_middle pre post y x.question hq hpre hpost
    · exact hch

/-- C4 counterexample: the sets `[{"pick one", ["Same","same"], "A", ""}]`
and `[{"pick one", ["same","Same"], "A", ""}]` differ only by a non-identity
permutation of one common question's choices, yet the validator passes and
reports no differences — normalization lowercases the choices before
hashing, so a reorder that case-normalizes to the same list is invisible. -/
theorem C4_reorder_counterexample :
    (["Same", "same"] : List String).Perm ["same", "Same"]
    ∧ (["Same", "same"] : List String) ≠ ["same", "Same"]
    ∧ (validate_conversion [⟨"pick one", ["Same", "same"], "A", ""⟩]
        [⟨"pick one", ["same", "Same"], "A", ""⟩]).validation_passed = true
    ∧ (validate_conversion [⟨"pick one", ["Same", "same"], "A", ""⟩]
        [⟨"pick one", ["same", "Same"], "A", ""⟩]).differences = [] :=
  ⟨List.Perm.swap "same" "Same" [], by decide, by decide, by decide⟩

/-- C4 witness: the amended theorem applied to a one-question set whose
choices `["Alpha", "Beta"]` are reversed. -/
theorem C4_witness :
    ((["Beta", "Alpha"] : List String).Perm ["Alpha", "Beta"]
      ∧ (["Beta", "Alpha"] : List String) ≠ ["Alpha", "Beta"]
      ∧ (normalizeRecord ⟨"pick one", ["Beta", "Alpha"], "A", ""⟩).choices
        ≠ (normalizeRecord ⟨"pick one", ["Alpha", "Beta"], "A", ""⟩).choices)
    ∧ (validate_conversion [⟨"pick one", ["Alpha", "Beta"], "A", ""⟩]
        [⟨"pick one", ["Beta", "Alpha"], "A", ""⟩]).validation_passed = false
    ∧ ("Choice mismatch in question: " ++ pyTake 50 "pick one" ++ "...")
      ∈ (validate_conversion [⟨"pick one", ["Alpha", "Beta"], "A", ""⟩]
          [⟨"pick one", ["Beta", "Alpha"], "A", ""⟩]).differences :=
  ⟨⟨List.Perm.swap "Alpha" "Beta" [], by decide, by decide⟩,
    C4_reorder_detected [] [] ⟨"pick one", ["Alpha", "Beta"], "A", ""⟩
      ⟨"pick one", ["Beta", "Alpha"], "A", ""⟩ rfl rfl rfl
      (List.Perm.swap "Alpha" "Beta" []) (by decide) (by decide) (by decide)⟩

end MATO
